import Mathlib

/-! A shallow embedding of `shell.c`.

The interpreter of `src/shell.c` is embedded as pure functions over an explicit
interpreter state.

* A C string is the list of its characters before the terminating NUL, a
  NULL-terminated `char **` array the list of its entries before the NULL.
* The arrays that the code allocates for tokens, commands and stages keep their
  capacity: a write past the end of one has no meaning in C and is modelled as
  a failed run (`none`, or the stop `Stop.undefined`).
* A function is followed in one process.  The results of its system calls are
  parameters (`Env`, `StageEnv`); a `fork` that returns 0 means that the
  process followed is the child.  What the process does is recorded as a trace
  of events, in program order.
* A blocking `waitpid` is taken to return.  The line that `scanf` reads is a
  parameter; the line buffer keeps its capacity like the other arrays.
-/

namespace CustomShell

/-- A token: the characters of one NUL-terminated string. -/
abbrev Token := List Char

/-- The constant `MAX_INPUT_SIZE`: the size of the line buffer `line` of `main`. -/
def MAX_INPUT_SIZE : Nat := 1024

/-- The constant `MAX_TOKEN_SIZE`: the size of the scratch buffer and of each token buffer. -/
def MAX_TOKEN_SIZE : Nat := 64

/-- The constant `MAX_NUM_TOKENS`: the number of slots of `tokens`, `command` and
`pipe_commands`. -/
def MAX_NUM_TOKENS : Nat := 64

/-! ## tokenize (shell.c 24-50) -/

/-- The test `readChar == ' ' || readChar == '\n' || readChar == '\t'`. -/
def isDelim (readChar : Char) : Bool :=
  readChar == ' ' || readChar == '\n' || readChar == '\t'

/-- The `for` loop of `tokenize`, run over the characters of `line` that are
still to be read.  `token` is the content `token[0 .. tokenIndex)` of the
64-byte scratch buffer (so `tokenIndex = token.length`) and `tokens` is
`tokens[0 .. tokenNo)` of the 64-slot result array.  Each array write checks
its index against the capacity the source allocates; after the loop comes
`tokens[tokenNo] = NULL`. -/
def tokenize_loop : List Char → List Char → List Token → Option (List Token)
  | [], _, tokens =>
    -- tokens[tokenNo] = NULL;
    if tokens.length < MAX_NUM_TOKENS then some tokens else none
  | readChar :: rest, token, tokens =>
    if isDelim readChar then
      -- token[tokenIndex] = '\0';
      if token.length < MAX_TOKEN_SIZE then
        if token.length ≠ 0 then
          -- tokens[tokenNo] = malloc(..); strcpy(tokens[tokenNo++], token); tokenIndex = 0;
          if tokens.length < MAX_NUM_TOKENS then
            tokenize_loop rest [] (tokens ++ [token])
          else none
        else tokenize_loop rest token tokens
      else none
    else
      -- token[tokenIndex++] = readChar;
      if token.length < MAX_TOKEN_SIZE then
        tokenize_loop rest (token ++ [readChar]) tokens
      else none

/-- The function `tokenize`: `tokenIndex = 0, tokenNo = 0`, then the loop over
`i < strlen(line)`.  The result is the content of the returned array before
its NULL end marker; `none` stands for a run that overflows a buffer. -/
def tokenize (line : List Char) : Option (List Token) :=
  tokenize_loop line [] []

/-- The reference for the tokenizer, in the words of the specification: the
line split on space, tab and newline, with the empty pieces (runs of
delimiters) dropped.  These are the maximal runs of non-delimiter characters. -/
def spec_tokens (line : List Char) : List Token :=
  (line.splitOnP isDelim).filter (fun t => !t.isEmpty)


/-! ## Process-wide state (shell.c 14-17) and the system-call interface -/

/-- The disposition of SIGINT in a process: the default action, `SIG_IGN`, or
the function `sigint_handler`. -/
inductive Disposition
  | SIG_DFL
  | SIG_IGN
  | handler
  deriving DecidableEq, Repr

/-- What an open file descriptor refers to: the terminal, one end of the pipe
that `main` creates at start-up, or one end of the pipe that iteration `i` of
`execute_pipe_command` creates. -/
inductive FdObj
  | tty
  | startup_pipe (write_end : Bool)
  | stage_pipe (i : Nat) (write_end : Bool)
  deriving DecidableEq, Repr

/-- The descriptor table of a process: descriptor number and what it refers to.
A `fork` copies it and `execvp` keeps it. -/
abbrev FdTable := List (Int × FdObj)

/-- The call `close(fd)`. -/
def fd_close (t : FdTable) (fd : Int) : FdTable :=
  t.filter (fun e => e.1 != fd)

/-- The object behind descriptor `fd`, if it is open. -/
def fd_lookup (t : FdTable) (fd : Int) : Option FdObj :=
  (t.find? (fun e => e.1 == fd)).map Prod.snd

/-- A new descriptor `fd` for `obj`, as handed out by `pipe`. -/
def fd_open (t : FdTable) (fd : Int) (obj : FdObj) : FdTable :=
  (fd, obj) :: fd_close t fd

/-- The call `dup2(oldfd, newfd)`: fails (`none`, the C result -1) when `oldfd`
is not open, otherwise makes `newfd` a copy of `oldfd`. -/
def fd_dup2 (t : FdTable) (oldfd newfd : Int) : Option FdTable :=
  match fd_lookup t oldfd with
  | none => none
  | some obj => some (if oldfd = newfd then t else (newfd, obj) :: fd_close t newfd)

/-- The globals of shell.c together with the two pieces of kernel state of the
interpreter process that the code changes: `child_process[64]`,
`child_process_idx`, `foreground_pid`, the SIGINT disposition and the
descriptor table. -/
structure Shell where
  child_process : List Int
  child_process_idx : Int
  foreground_pid : Int
  sigint : Disposition
  fds : FdTable
  deriving DecidableEq, Repr

/-- The messages the code writes to the error stream. -/
inductive Msg
  | no_such_command            -- fprintf(stderr, "no such command\n")
  | cd_home                    -- perror("error while changing directory to HOME")
  | cd_failed                  -- perror("")
  | background_limit           -- perror("Background process limit reached")
  | fork_failed                -- fprintf(stderr, "Fork failed\n")
  | command_not_found          -- perror("Command not found") / fprintf(stderr, "Command not found\n")
  | pipe_failed                -- perror("Pipe failed")
  | fork_failed_fatal          -- perror("Fork failed")
  | dup_error                  -- perror("dup error")
  | exec_failed                -- perror("Exec failed")
  deriving DecidableEq, Repr

/-- What the code writes to standard output. -/
inductive Out
  | finished (pid : Int)       -- printf("Shell : background process with %d finished\n", pid)
  | prompt                     -- printf("%s ", getcwd_buf); printf("$ ")
  deriving DecidableEq, Repr

/-- The observable actions of one process, in program order. -/
inductive Event
  | stderr (m : Msg)
  | stdout (o : Out)
  | waitpid_any (result : Int)             -- waitpid(-1, NULL, WNOHANG)
  | chdir (path : Option Token)            -- `none` is chdir(getenv("HOME"))
  | kill_own_group                         -- kill(-getpid(), SIGKILL)
  | kill_sigint (pid : Int)                -- kill(pid, SIGINT)
  | fork (result : Int)
  | signal (d : Disposition)               -- signal(SIGINT, d)
  | setpgid (pid pgid : Int)
  | waitpid (pid : Int)                    -- waitpid(pid, NULL, 0)
  | pipe (result : Option (Int × Int))
  | dup2 (oldfd newfd : Int)
  | close (fd : Int)
  | execvp (argv : List Token)
  | call_execute_command (tokens : List Token) (no_of_tokens : Nat)
  | call_execute_pipe_command (commands : List (List Token)) (no_of_commands : Nat)
  | ret
  deriving DecidableEq, Repr

/-- How a process stops running the code of shell.c. -/
inductive Stop
  | killed                                       -- by its own kill(-getpid(), SIGKILL)
  | exit (status : Nat)                          -- exit(status) or _exit(status)
  | exec (argv : List Token) (fds : FdTable)     -- execvp(argv[0], argv) replaced the image
  | undefined                                    -- an access outside an array, or execvp(NULL, ..)
  deriving DecidableEq, Repr

/-- The result of running a function of shell.c in one process: it returns with
a new state, or the process stops inside it.  Both carry the trace of the
process's actions. -/
inductive Outcome (σ : Type)
  | returned (s : σ) (trace : List Event)
  | stopped (how : Stop) (trace : List Event)
  deriving DecidableEq, Repr

/-- The trace of an outcome. -/
def Outcome.trace {σ : Type} : Outcome σ → List Event
  | .returned _ tr => tr
  | .stopped _ tr => tr

/-- The results of the system calls made during one call of `execute_command`.
`fork_result` is what `fork()` returns in the process that is followed: -1, 0
(this process is the child) or the child's id.  The blocking `waitpid` is taken
to return. -/
structure Env where
  fork_result : Int
  chdir_ok : Bool
  /-- `execvp` finds the program, and so does not return. -/
  exec_ok : Bool
  /-- The interpreter leads its process group, so `kill(-getpid(), SIGKILL)` kills it. -/
  leader : Bool

/-- The results of the system calls of one iteration of `execute_pipe_command`. -/
structure StageEnv where
  /-- The descriptors `pipe_fd[0]`, `pipe_fd[1]` from `pipe`, `none` when it returns -1. -/
  pipe_result : Option (Int × Int)
  fork_result : Int
  exec_ok : Bool

/-! ## update_child_process_array (shell.c 57-69) -/

/-- The inner loop `for (j = i; j < child_process_idx - 1; j++)
child_process[j] = child_process[j + 1];`, with the number of iterations left
as first argument. -/
def shift_loop : Nat → Nat → List Int → List Int
  | 0, _, child_process => child_process
  | fuel + 1, j, child_process =>
    shift_loop fuel (j + 1) (child_process.set j (child_process.getD (j + 1) 0))

/-- The outer loop `for (i = 0; i < child_process_idx; i++)` with its `break`,
with the number of iterations left as first argument. -/
def search_loop (process_id : Int) (child_process_idx : Int) : Nat → Nat → List Int → List Int
  | 0, _, child_process => child_process
  | fuel + 1, i, child_process =>
    if child_process.getD i 0 = process_id then
      shift_loop (child_process_idx - 1 - i).toNat i child_process
    else search_loop process_id child_process_idx fuel (i + 1) child_process

/-- The function `update_child_process_array`.  All its array accesses are
inside `child_process[64]` as long as `child_process_idx ≤ 64`. -/
def update_child_process_array (s : Shell) (process_id : Int) : Shell :=
  { s with
    child_process :=
      search_loop process_id s.child_process_idx s.child_process_idx.toNat 0 s.child_process
    child_process_idx := s.child_process_idx - 1 }

/-! ## sigint_handler (shell.c 76-79) -/

/-- The function `sigint_handler`: `kill(-foreground_pid, SIGINT)`. -/
def sigint_handler (s : Shell) : List Event :=
  [.kill_sigint (-s.foreground_pid)]

/-- What the interpreter does when SIGINT is delivered to it in state `s`. -/
def deliver_sigint (s : Shell) : Option (List Event) :=
  match s.sigint with
  | .SIG_DFL => none                   -- the process is terminated
  | .SIG_IGN => some []
  | .handler => some (sigint_handler s)

/-! ## execute_pipe_command (shell.c 88-167) -/

/-- The locals of `execute_pipe_command` that live across iterations, and the
descriptor table of the process. -/
structure PipeLoop where
  prev_read_fd : Int
  c_process : List Int
  fds : FdTable
  deriving DecidableEq, Repr

/-- The three `close` calls of the child (shell.c 140-145). -/
def child_closes (prev_read_fd : Int) (pipe_fd : Int × Int) (fds : FdTable) :
    FdTable × List Event :=
  let r1 := if prev_read_fd ≠ -1 then (fd_close fds prev_read_fd, [Event.close prev_read_fd])
            else (fds, [])
  let r2 := if pipe_fd.1 ≠ -1 then (fd_close r1.1 pipe_fd.1, r1.2 ++ [Event.close pipe_fd.1])
            else r1
  if pipe_fd.2 ≠ -1 then (fd_close r2.1 pipe_fd.2, r2.2 ++ [Event.close pipe_fd.2])
  else r2

/-- The end of the child branch (shell.c 139-149): the closes, then
`execvp(commands[i][0], commands[i])`. -/
def child_exec (exec_ok : Bool) (command : List Token) (prev_read_fd : Int)
    (pipe_fd : Int × Int) (fds : FdTable) (tr : List Event) : Outcome PipeLoop :=
  let c := child_closes prev_read_fd pipe_fd fds
  let tr := tr ++ c.2 ++ [.execvp command]
  match command with
  | [] => .stopped .undefined tr             -- execvp(NULL, ..)
  | _ :: _ =>
    if exec_ok then .stopped (.exec command c.1) tr
    else .stopped (.exit 1) (tr ++ [.stderr .exec_failed])

/-- The child branch `if (fork_result == 0)` of iteration `i` (shell.c 117-150). -/
def pipe_child (exec_ok : Bool) (no_of_commands i : Nat) (command : List Token)
    (prev_read_fd : Int) (pipe_fd : Int × Int) (fds : FdTable) (tr : List Event) :
    Outcome PipeLoop :=
  let stdout_step (fds : FdTable) (tr : List Event) : Outcome PipeLoop :=
    if i + 1 < no_of_commands then
      match fd_dup2 fds pipe_fd.2 1 with
      | none => .stopped (.exit 1) (tr ++ [.dup2 pipe_fd.2 1, .stderr .dup_error])
      | some fds => child_exec exec_ok command prev_read_fd pipe_fd fds (tr ++ [.dup2 pipe_fd.2 1])
    else child_exec exec_ok command prev_read_fd pipe_fd fds tr
  if 0 < i then
    match fd_dup2 fds prev_read_fd 0 with
    | none => .stopped (.exit 1) (tr ++ [.dup2 prev_read_fd 0, .stderr .dup_error])
    | some fds => stdout_step fds (tr ++ [.dup2 prev_read_fd 0])
  else stdout_step fds tr

/-- The parent's part of iteration `i` after the fork (shell.c 155-162). -/
def pipe_parent (fork_result : Int) (pipe_fd : Int × Int) (st : PipeLoop) (fds : FdTable)
    (tr : List Event) : PipeLoop × List Event :=
  let r1 := if pipe_fd.2 ≠ -1 then (fd_close fds pipe_fd.2, tr ++ [Event.close pipe_fd.2])
            else (fds, tr)
  let r2 := if st.prev_read_fd ≠ -1 then
              (fd_close r1.1 st.prev_read_fd, r1.2 ++ [Event.close st.prev_read_fd])
            else r1
  ({ prev_read_fd := pipe_fd.1, c_process := st.c_process ++ [fork_result], fds := r2.1 }, r2.2)

/-- The first loop of `execute_pipe_command`, `for (i = 0; i < no_of_commands;
i++)`, with the number of iterations left as first argument. -/
def pipe_loop (env : Nat → StageEnv) (commands : List (List Token)) (no_of_commands : Nat) :
    Nat → Nat → PipeLoop → List Event → Outcome PipeLoop
  | 0, _, st, tr => .returned st tr
  | fuel + 1, i, st, tr =>
    match commands.get? i with
    | none => .stopped .undefined tr
    | some command =>
      let e := env i
      let after_fork (pipe_fd : Int × Int) (fds : FdTable) (tr : List Event) :
          Outcome PipeLoop :=
        let tr := tr ++ [.fork e.fork_result]
        if e.fork_result < 0 then .stopped (.exit 1) (tr ++ [.stderr .fork_failed_fatal])
        else if e.fork_result = 0 then
          pipe_child e.exec_ok no_of_commands i command st.prev_read_fd pipe_fd fds tr
        else
          let p := pipe_parent e.fork_result pipe_fd st fds tr
          pipe_loop env commands no_of_commands fuel (i + 1) p.1 p.2
      -- int pipe_fd[2] = {-1, -1};
      if i + 1 < no_of_commands then
        match e.pipe_result with
        | none => .stopped (.exit 1) (tr ++ [.pipe none, .stderr .pipe_failed])
        | some (r, w) =>
          after_fork (r, w)
            (fd_open (fd_open st.fds r (.stage_pipe i false)) w (.stage_pipe i true))
            (tr ++ [.pipe (some (r, w))])
      else after_fork (-1, -1) st.fds tr

/-- The function `execute_pipe_command`: the loop, then
`for (i = 0; i < no_of_commands; i++) waitpid(c_process[i], NULL, 0);`. -/
def execute_pipe_command (env : Nat → StageEnv) (s : Shell) (commands : List (List Token))
    (no_of_commands : Nat) : Outcome Shell :=
  match pipe_loop env commands no_of_commands no_of_commands 0
      { prev_read_fd := -1, c_process := [], fds := s.fds } [] with
  | .stopped how tr => .stopped how tr
  | .returned st tr =>
    .returned { s with fds := st.fds } (tr ++ st.c_process.map Event.waitpid)

/-! ## execute_command (shell.c 175-245) -/

/-- The branch for a background command (shell.c 199-219). -/
def execute_background (env : Env) (s : Shell) (tokens : List Token) (no_of_tokens : Nat) :
    Outcome Shell :=
  if 64 ≤ s.child_process_idx then .returned s [.stderr .background_limit]
  else
    -- tokens[no_of_tokens - 2] = NULL;
    let tokens := tokens.take (no_of_tokens - 2)
    let tr := Event.fork env.fork_result ::
      (if env.fork_result = -1 then [Event.stderr .fork_failed] else [])
    -- if (child_process_idx < 64) child_process[child_process_idx++] = fork_result;
    if s.child_process_idx < 0 then .stopped .undefined tr
    else
      let s1 : Shell :=
        if s.child_process_idx < 64 then
          { s with
            child_process := s.child_process.set s.child_process_idx.toNat env.fork_result
            child_process_idx := s.child_process_idx + 1 }
        else s
      if env.fork_result = 0 then
        if env.exec_ok then .stopped (.exec tokens s1.fds) (tr ++ [.execvp tokens])
        else .stopped (.exit 0) (tr ++ [.execvp tokens, .stderr .command_not_found])
      else .returned s1 tr

/-- The branch for a foreground command (shell.c 222-244). -/
def execute_foreground (env : Env) (s : Shell) (tokens : List Token) : Outcome Shell :=
  let s1 : Shell := { s with sigint := .handler }
  let tr := [Event.fork env.fork_result, Event.signal .handler] ++
    (if env.fork_result = -1 then [Event.stderr .fork_failed] else [])
  if env.fork_result = 0 then
    if env.exec_ok then .stopped (.exec tokens s1.fds) (tr ++ [.setpgid 0 0, .execvp tokens])
    else .stopped (.exit 0) (tr ++ [.setpgid 0 0, .execvp tokens, .stderr .command_not_found])
  else if 0 < env.fork_result then
    .returned { s1 with foreground_pid := env.fork_result, sigint := .SIG_IGN }
      (tr ++ [.setpgid env.fork_result env.fork_result, .waitpid env.fork_result,
        .signal .SIG_IGN])
  else .returned s1 tr

/-- The function `execute_command`.  `tokens` is the content of the array
before its NULL entry. -/
def execute_command (env : Env) (s : Shell) (tokens : List Token) (no_of_tokens : Nat) :
    Outcome Shell :=
  match tokens with
  | [] => .returned s [.stderr .no_such_command]
  | t0 :: rest =>
    if t0 = "cd".toList then
      match rest with
      | [] => .returned s (.chdir none :: if env.chdir_ok then [] else [.stderr .cd_home])
      | t1 :: _ =>
        .returned s (.chdir (some t1) :: if env.chdir_ok then [] else [.stderr .cd_failed])
    else if t0 = "exit".toList then
      if env.leader then .stopped .killed [.kill_own_group]
      else .returned s [.kill_own_group]
    else if 3 ≤ no_of_tokens then
      match tokens.get? (no_of_tokens - 2) with
      | none => .stopped .undefined []         -- strcmp on NULL or past the array
      | some t =>
        if t = "&".toList then execute_background env s tokens no_of_tokens
        else execute_foreground env s tokens
    else execute_foreground env s tokens

/-! ## main (shell.c 253-333) -/

/-- The state of the interpreter after the start-up code of `main`
(shell.c 259-260): `signal(SIGINT, SIG_IGN); pipe(pipe_fd);` run from the
initial values of the globals, with the terminal on descriptors 0, 1 and 2. -/
def main_startup (pipe_result : Option (Int × Int)) : Shell × List Event :=
  let fds : FdTable := [(0, .tty), (1, .tty), (2, .tty)]
  ({ child_process := List.replicate 64 0
     child_process_idx := 0
     foreground_pid := -1
     sigint := .SIG_IGN
     fds := match pipe_result with
       | none => fds
       | some (r, w) => fd_open (fd_open fds r (.startup_pipe false)) w (.startup_pipe true) },
   [.signal .SIG_IGN, .pipe pipe_result])

/-- The results of the system calls made while one line is processed: those of
the `k`-th call of `execute_command`, and those of the `i`-th iteration of
`execute_pipe_command`. -/
structure LineEnv where
  calls : Nat → Env
  stages : Nat → StageEnv

/-- The locals of the loop body of `main` during the scan of the tokens:
`command[0 .. command_index)`, `pipe_commands[0 .. pipe_command_number)` and
`pipe_command`; `calls` counts the calls of `execute_command` made so far. -/
structure Scan where
  s : Shell
  command : List Token
  pipe_commands : List (List Token)
  pipe_command : Bool
  calls : Nat
  deriving DecidableEq, Repr

/-- The scan `for (int i = 0; tokens[i] != NULL; i++)` of `main`
(shell.c 292-311). -/
def main_scan (env : LineEnv) : List Token → Scan → List Event → Outcome Scan
  | [], sc, tr => .returned sc tr
  | token :: rest, sc, tr =>
    -- command[command_index] = malloc(..);
    if ¬ sc.command.length < MAX_NUM_TOKENS then .stopped .undefined tr
    else if token = "&&".toList then
      -- command[command_index] = NULL; execute_command(command, command_index + 1);
      let tr := tr ++ [.call_execute_command sc.command (sc.command.length + 1)]
      match execute_command (env.calls sc.calls) sc.s sc.command (sc.command.length + 1) with
      | .stopped how tr1 => .stopped how (tr ++ tr1)
      | .returned s1 tr1 =>
        main_scan env rest { sc with s := s1, command := [], calls := sc.calls + 1 }
          (tr ++ tr1 ++ [.ret])
    else if token = "|".toList then
      -- pipe_commands[pipe_command_number++] = command; command = malloc(..);
      if sc.pipe_commands.length < MAX_NUM_TOKENS then
        main_scan env rest
          { sc with pipe_command := true, pipe_commands := sc.pipe_commands ++ [sc.command],
                    command := [] } tr
      else .stopped .undefined tr
    else
      -- command[command_index++] = tokens[i];
      main_scan env rest { sc with command := sc.command ++ [token] } tr

/-- The call `execute_pipe_command(pipe_commands, pipe_command_number)` made
by `main` (shell.c 318), with its call and return marks in the trace. -/
def pipe_dispatch (env : LineEnv) (s : Shell) (pipe_commands : List (List Token))
    (tr : List Event) : Outcome Shell :=
  let tr := tr ++ [.call_execute_pipe_command pipe_commands pipe_commands.length]
  match execute_pipe_command env.stages s pipe_commands pipe_commands.length with
  | .stopped how tr1 => .stopped how (tr ++ tr1)
  | .returned s1 tr1 => .returned s1 (tr ++ tr1 ++ [.ret])

/-- The dispatch after the scan (shell.c 313-324). -/
def main_dispatch (env : LineEnv) (sc : Scan) (tr : List Event) : Outcome Shell :=
  -- command[command_index] = NULL;
  if ¬ sc.command.length < MAX_NUM_TOKENS then .stopped .undefined tr
  else if sc.pipe_command then
    -- pipe_commands[pipe_command_number++] = command;
    if ¬ sc.pipe_commands.length < MAX_NUM_TOKENS then .stopped .undefined tr
    else
      let pipe_commands := sc.pipe_commands ++ [sc.command]
      -- pipe_commands[pipe_command_number] = NULL;
      if ¬ pipe_commands.length < MAX_NUM_TOKENS then .stopped .undefined tr
      else pipe_dispatch env sc.s pipe_commands tr
  else
    let tr := tr ++ [.call_execute_command sc.command (sc.command.length + 1)]
    match execute_command (env.calls sc.calls) sc.s sc.command (sc.command.length + 1) with
    | .stopped how tr1 => .stopped how (tr ++ tr1)
    | .returned s1 tr1 => .returned s1 (tr ++ tr1 ++ [.ret])

/-- The rest of the loop body from a point of the scan on: the remaining
tokens are scanned and the result is dispatched. -/
def main_rest (env : LineEnv) (tokens : List Token) (sc : Scan) (tr : List Event) :
    Outcome Shell :=
  match main_scan env tokens sc tr with
  | .stopped how tr => .stopped how tr
  | .returned sc tr => main_dispatch env sc tr

/-- The plan-building part of the loop body, from the tokens of the line to the
dispatch (shell.c 287-324): `command_index = 0`, `pipe_command_number = 0`,
`pipe_command = false`, then the scan and the dispatch. -/
def main_tokens (env : LineEnv) (s : Shell) (tokens : List Token) : Outcome Shell :=
  main_rest env tokens
    { s := s, command := [], pipe_commands := [], pipe_command := false, calls := 0 } []

/-- The loop body of `main` from the line that was read to the dispatch
(shell.c 276-324).  `line` is the text that `scanf("%[^\n]", line)` read,
without its newline.  The buffer `line[MAX_INPUT_SIZE]` is zeroed, `scanf`
stores the text and a NUL, and `line[strlen(line)] = '\n'` replaces that NUL:
the string that `tokenize` reads ends inside the buffer only if the byte after
the newline is still a byte of the buffer, that is for a text of at most
`MAX_INPUT_SIZE - 2` characters.  Then `tokenize` splits the line, and the
tokens are scanned and dispatched. -/
def main_line (env : LineEnv) (s : Shell) (line : List Char) : Outcome Shell :=
  if MAX_INPUT_SIZE < line.length + 2 then .stopped .undefined []
  else
    match tokenize (line ++ ['\n']) with
    | none => .stopped .undefined []
    | some tokens => main_tokens env s tokens

/-- The loop that collects the finished children at the top of an iteration
(shell.c 266-273).  The first argument holds the results of the successive
calls `waitpid(-1, NULL, WNOHANG)`; the loop ends at the first result that is
not positive, which the kernel gives when no finished child is left, and a
list that ends before one is taken to be followed by it. -/
def main_reap : List Int → Shell → List Event → Shell × List Event
  | [], s, tr => (s, tr)
  | killed_process_id :: results, s, tr =>
    if killed_process_id ≤ 0 then (s, tr ++ [.waitpid_any killed_process_id])
    else
      main_reap results (update_child_process_array s killed_process_id)
        (tr ++ [.waitpid_any killed_process_id, .stdout (.finished killed_process_id)])

/-- One iteration of the loop `while (1)` of `main` (shell.c 263-331): the
finished children are collected, the prompt is printed, the line is read and
processed. -/
def main_iteration (results : List Int) (env : LineEnv) (s : Shell) (line : List Char) :
    Outcome Shell :=
  let r := main_reap results s []
  match main_line env r.1 line with
  | .stopped how tr => .stopped how (r.2 ++ [.stdout .prompt] ++ tr)
  | .returned s1 tr => .returned s1 (r.2 ++ [.stdout .prompt] ++ tr)

/-- The tokens of an input line, by the reference of the tokenizer: the line
is tokenized with the newline that `main` appends. -/
def line_tokens (line : List Char) : List Token :=
  spec_tokens (line ++ ['\n'])

/-! ## Reading a trace -/

/-- The marks of a trace: its calls of `execute_command` and the returns. -/
def marks (tr : List Event) : List Event :=
  tr.filter (fun e =>
    match e with
    | .call_execute_command _ _ => true
    | .ret => true
    | _ => false)

/-- The marks of a run that calls `execute_command` once for each of the
segments, in order, with `no_of_tokens` the length of the segment plus one, each
call returning before the next one. -/
def sequential_calls (segments : List (List Token)) : List Event :=
  segments.flatMap (fun seg => [.call_execute_command seg (seg.length + 1), .ret])

/-! ## Concrete inputs -/

/-- The interpreter state after start-up, the start-up pipe on descriptors 3 and 4. -/
def startup : Shell := (main_startup (some (3, 4))).1

/-- A state whose job table holds 64 entries. -/
def full_table : Shell :=
  { startup with child_process := List.replicate 64 7, child_process_idx := 64 }

/-- The state that the command "sleep 1 &" leaves after start-up: the child 100 is the one
entry of the job table. -/
def one_job : Shell :=
  { startup with child_process := 100 :: List.replicate 63 0, child_process_idx := 1 }

/-- A state whose job table holds the four entries 7, 9, 7, 4. -/
def four_jobs : Shell :=
  { startup with child_process := [7, 9, 7, 4] ++ List.replicate 60 0, child_process_idx := 4 }

/-- System calls as the interpreter sees them when all succeed: `fork` returns
the child's id 100, and the interpreter leads its process group. -/
def parent_env : Env :=
  { fork_result := 100, chdir_ok := true, exec_ok := true, leader := true }

/-- System calls of a pipeline when all succeed: iteration `i` gets the
descriptors `5 + i` and `6 + i` from `pipe`, and `fork` returns `200 + i`; in
the process that is the child of iteration `child`, that `fork` returns 0. -/
def stage_env (child : Option Nat) (i : Nat) : StageEnv :=
  { pipe_result := some (5 + (i : Int), 6 + (i : Int))
    fork_result := if child = some i then 0 else 200 + (i : Int)
    exec_ok := true }

/-- The system calls of one line: `parent_env` for every call of
`execute_command`, `stage_env child` for the pipeline. -/
def line_env (child : Option Nat) : LineEnv :=
  { calls := fun _ => parent_env, stages := stage_env child }

/-- The line of 63 `|` tokens separated by single spaces. -/
def sixty_three_bars : List Char :=
  (List.replicate 62 ['|', ' ']).flatten ++ ['|']

/-- A line of 64 tokens, one of them `|`: "a | " followed by 62 times "a ". -/
def pipe_line_64_tokens : List Char :=
  "a | ".toList ++ (List.replicate 62 ['a', ' ']).flatten

/-- A line with one `|` and a token of 64 characters. -/
def pipe_line_long_token : List Char :=
  "a | ".toList ++ List.replicate 64 'x'

/-- A line of 1023 characters with one `|`: "a | b" followed by 1018 spaces. -/
def pipe_line_1023 : List Char :=
  "a | b".toList ++ List.replicate 1018 ' '

/-- A line of 64 tokens, one of them `&&`: "ls && " followed by 62 times "a ". -/
def and_line_64_tokens : List Char :=
  "ls && ".toList ++ (List.replicate 62 ['a', ' ']).flatten

/-- A line with one `&&` and a token of 64 characters. -/
def and_line_long_token : List Char :=
  "ls && ".toList ++ List.replicate 64 'x'

/-- A line of 1023 characters with one `&&`: "ls && ls" followed by 1015 spaces. -/
def and_line_1023 : List Char :=
  "ls && ls".toList ++ List.replicate 1015 ' '

/-- The line of 1023 spaces. -/
def blank_line_1023 : List Char :=
  List.replicate 1023 ' '

/-! ## Descriptors in a pipeline -/

/-- The descriptors that `pipe` hands out in a pipeline of `N` stages started from the
descriptor table `fds0`: iteration `i` gets the read end `R i` and the write end `W i`, two
different descriptors that are not open in the interpreter at that moment and are neither
standard input nor standard output. -/
structure FreshPipes (env : Nat → StageEnv) (fds0 : FdTable) (N : Nat) (R W : Nat → Int) :
    Prop where
  result : ∀ i, i + 1 < N → (env i).pipe_result = some (R i, W i)
  valid : ∀ i, i + 1 < N → R i ≠ -1 ∧ W i ≠ -1 ∧ R i ≠ W i
  std : ∀ i, i + 1 < N → R i ≠ 0 ∧ R i ≠ 1 ∧ W i ≠ 0 ∧ W i ≠ 1
  closed : ∀ i, i + 1 < N → fd_lookup fds0 (R i) = none ∧ fd_lookup fds0 (W i) = none
  next : ∀ i, i + 2 < N → R (i + 1) ≠ R i ∧ W (i + 1) ≠ R i

/-- The state of the loop of `execute_pipe_command` in the interpreter before iteration `j`:
`prev_read_fd` is the read end of the previous pipe, the only descriptor open beyond those
of `fds0`, and `c_process` holds the ids of the children so far. -/
def PipeInv (env : Nat → StageEnv) (fds0 : FdTable) (N : Nat) (R : Nat → Int) (j : Nat)
    (st : PipeLoop) : Prop :=
  st.prev_read_fd = (if 0 < j ∧ j < N then R (j - 1) else -1) ∧
  (∀ fd, fd_lookup st.fds fd =
    if 0 < j ∧ j < N ∧ fd = R (j - 1) then some (.stage_pipe (j - 1) false)
    else fd_lookup fds0 fd) ∧
  st.c_process = (List.range j).map (fun k => (env k).fork_result)

/-- The actions of the interpreter in iteration `j` of the loop of `execute_pipe_command`. -/
def stage_events (env : Nat → StageEnv) (N : Nat) (R W : Nat → Int) (j : Nat) : List Event :=
  (if j + 1 < N then [Event.pipe (some (R j, W j))] else []) ++
  [Event.fork (env j).fork_result] ++
  (if j + 1 < N then [Event.close (W j)] else []) ++
  (if 0 < j then [Event.close (R (j - 1))] else [])

/-! ## Theorems -/

/-- Dropping the empty lists of a list of lists does not change its concatenation. -/
theorem flatten_filter_nonempty {α : Type} (L : List (List α)) :
    (L.filter (fun t => !t.isEmpty)).flatten = L.flatten := by
  induction L with
  | nil => rfl
  | cons t L ih =>
    cases t with
    | nil => simpa [List.filter] using ih
    | cons a t => simp [List.filter, ih]

/-- Prepending an element to the first list prepends it to the concatenation. -/
theorem flatten_modifyHead_cons {α : Type} (x : α) (L : List (List α)) (h : L ≠ []) :
    (L.modifyHead (List.cons x)).flatten = x :: L.flatten := by
  cases L with
  | nil => exact absurd rfl h
  | cons t L => simp [List.modifyHead]

/-- The pieces of a line, concatenated, are the line without its delimiters. -/
theorem flatten_splitOnP (line : List Char) :
    (line.splitOnP isDelim).flatten = line.filter (fun c => !isDelim c) := by
  induction line with
  | nil => simp [List.splitOnP_nil]
  | cons x xs ih =>
    rw [List.splitOnP_cons]
    by_cases hx : isDelim x = true
    · simp [hx, ih]
    · simp only [hx]
      rw [if_neg (by simp), flatten_modifyHead_cons _ _ (List.splitOnP_ne_nil _ _), ih]
      simp [List.filter, hx]

/-- No piece of a line contains a delimiter. -/
theorem splitOnP_no_delim (line : List Char) :
    ∀ t ∈ line.splitOnP isDelim, ∀ c ∈ t, isDelim c = false := by
  induction line with
  | nil => simp [List.splitOnP_nil]
  | cons x xs ih =>
    rw [List.splitOnP_cons]
    by_cases hx : isDelim x = true
    · simp only [hx, if_true]
      intro t ht
      rcases List.mem_cons.1 ht with h | h
      · subst h; simp
      · exact ih t h
    · rw [if_neg hx]
      cases hS : xs.splitOnP isDelim with
      | nil => exact absurd hS (List.splitOnP_ne_nil _ _)
      | cons s S =>
        rw [hS] at ih
        intro t ht
        simp only [List.modifyHead, List.mem_cons] at ht
        rcases ht with h | h
        · subst h
          intro c hc
          rcases List.mem_cons.1 hc with h' | h'
          · subst h'; simpa using hx
          · exact ih s (List.mem_cons_self _ _) c h'
        · exact ih t (List.mem_cons_of_mem _ h)

/-- The reference tokens of a delimiter-free prefix followed by a delimiter: the prefix, if it
is not empty, then the tokens of the rest. -/
theorem spec_tokens_first (token rest : List Char) (d : Char)
    (htok : ∀ c ∈ token, isDelim c = false) (hd : isDelim d = true) :
    spec_tokens (token ++ d :: rest) =
      if token = [] then spec_tokens rest else token :: spec_tokens rest := by
  unfold spec_tokens
  rw [List.splitOnP_first isDelim token (by intro x hx; simp [htok x hx]) d hd rest]
  cases token with
  | nil => simp [List.filter]
  | cons a t => simp [List.filter]

/-- A non-empty text that ends in a delimiter splits at its first delimiter. -/
theorem exists_delim_split (rest : List Char) (hlast : ∀ h : rest ≠ [], isDelim (rest.getLast h) = true)
    (hne : rest ≠ []) :
    ∃ a d b, rest = a ++ d :: b ∧ (∀ c ∈ a, isDelim c = false) ∧ isDelim d = true := by
  induction rest with
  | nil => exact absurd rfl hne
  | cons x xs ih =>
    by_cases hx : isDelim x = true
    · exact ⟨[], x, xs, rfl, by simp, hx⟩
    · have hxs : xs ≠ [] := by
        intro h; subst h
        have := hlast (by simp)
        simp at this; exact hx this
      have hl : ∀ h : xs ≠ [], isDelim (xs.getLast h) = true := by
        intro h
        have := hlast (by simp)
        rwa [List.getLast_cons h] at this
      obtain ⟨a, d, b, hr, ha, hd⟩ := ih hl hxs
      refine ⟨x :: a, d, b, by simp [hr], ?_, hd⟩
      intro c hc
      rcases List.mem_cons.1 hc with h | h
      · subst h; simpa using hx
      · exact ha c h

/-- The loop invariant of `tokenize`: from a state whose scratch buffer holds a delimiter-free
`token`, on a rest that ends in a delimiter, within the capacities, the loop appends the
reference tokens of `token ++ rest`. -/
theorem tokenize_loop_eq (rest : List Char) :
    ∀ (token : List Char) (tokens : List Token),
      (∀ c ∈ token, isDelim c = false) →
      (∀ h : rest ≠ [], isDelim (rest.getLast h) = true) →
      (rest = [] → token = []) →
      tokens.length + (spec_tokens (token ++ rest)).length ≤ 63 →
      (∀ t ∈ spec_tokens (token ++ rest), t.length ≤ 63) →
      tokenize_loop rest token tokens = some (tokens ++ spec_tokens (token ++ rest)) := by
  induction rest with
  | nil =>
    intro token tokens _ _ hnil hcount _
    have : token = [] := hnil rfl
    subst this
    have hs : spec_tokens [] = [] := by decide
    simp only [List.append_nil, hs, List.length_nil, Nat.add_zero] at hcount ⊢
    simp [tokenize_loop, MAX_NUM_TOKENS]; omega
  | cons x xs ih =>
    intro token tokens htok hlast _ hcount hlen
    have hl : ∀ h : xs ≠ [], isDelim (xs.getLast h) = true := by
      intro h
      have := hlast (by simp)
      rwa [List.getLast_cons h] at this
    by_cases hx : isDelim x = true
    · have hspec := spec_tokens_first token xs x htok hx
      rw [hspec] at hcount hlen ⊢
      have hxs : xs = [] → ([] : List Char) = [] := fun _ => rfl
      by_cases ht : token = []
      · subst ht
        simp only [if_true] at hcount hlen ⊢
        have := ih [] tokens (by simp) hl hxs (by simpa using hcount) (by simpa using hlen)
        simpa [tokenize_loop, hx, MAX_TOKEN_SIZE] using this
      · simp only [if_neg ht] at hcount hlen ⊢
        have h1 : token.length ≤ 63 := hlen token (List.mem_cons_self _ _)
        have h2 : token.length ≠ 0 := by
          intro h; exact ht (List.length_eq_zero.1 h)
        have h3 : tokens.length < 64 := by
          simp only [List.length_cons] at hcount; omega
        have := ih [] (tokens ++ [token]) (by simp) hl hxs
          (by simp only [List.length_append, List.length_cons, List.length_nil, List.nil_append] at hcount ⊢; omega)
          (by intro t h; exact hlen t (List.mem_cons_of_mem _ (by simpa using h)))
        rw [tokenize_loop, if_pos hx, if_pos (by simp [MAX_TOKEN_SIZE]; omega), if_pos h2,
          if_pos (by simpa [MAX_NUM_TOKENS] using h3), this]
        simp
    · have hxf : isDelim x = false := by simpa using hx
      have hxs : xs ≠ [] := by
        intro h; subst h
        have := hlast (by simp)
        simp at this; exact hx this
      obtain ⟨a, d, b, hr, ha, hd⟩ := exists_delim_split xs hl hxs
      have htok2 : ∀ c ∈ token ++ [x], isDelim c = false := by
        intro c hc
        rcases List.mem_append.1 hc with h | h
        · exact htok c h
        · simp at h; subst h; exact hxf
      have hrun : ∀ c ∈ (token ++ [x]) ++ a, isDelim c = false := by
        intro c hc
        rcases List.mem_append.1 hc with h | h
        · exact htok2 c h
        · exact ha c h
      have hassoc : token ++ x :: xs = ((token ++ [x]) ++ a) ++ d :: b := by
        simp [hr]
      have hmem : ((token ++ [x]) ++ a) ∈ spec_tokens (token ++ x :: xs) := by
        rw [hassoc, spec_tokens_first _ _ _ hrun hd, if_neg (by simp)]
        exact List.mem_cons_self _ _
      have hb := hlen _ hmem
      have h1 : token.length < 64 := by
        simp only [List.length_append, List.length_cons, List.length_nil] at hb; omega
      have e : (token ++ [x]) ++ xs = token ++ x :: xs := by simp
      have := ih (token ++ [x]) tokens htok2 hl (fun h => absurd h hxs)
        (by rw [e]; exact hcount) (by rw [e]; exact hlen)
      rw [tokenize_loop, if_neg hx, if_pos (by simpa [MAX_TOKEN_SIZE] using h1), this, e]

/-- C1: on a newline-terminated line that has at most 63 tokens of at most 63 characters each,
`tokenize` returns exactly the maximal runs of characters other than space, tab and newline,
in order (the list stands for the array before its NULL end marker): no token is empty, none
contains a delimiter, the tokens concatenated are the line without its delimiters, and a line
of delimiters only has no token. -/
theorem tokenize_maximal_runs (line : List Char)
    (hnl : line.getLast? = some '\n')
    (hcount : (spec_tokens line).length ≤ 63)
    (hlen : ∀ t ∈ spec_tokens line, t.length ≤ 63) :
    tokenize line = some (spec_tokens line) ∧
    (∀ t ∈ spec_tokens line, t ≠ [] ∧ ∀ c ∈ t, isDelim c = false) ∧
    (spec_tokens line).flatten = line.filter (fun c => !isDelim c) ∧
    ((∀ c ∈ line, isDelim c = true) → spec_tokens line = []) := by
  have hne : line ≠ [] := by
    intro h; subst h; simp at hnl
  have hlast : ∀ h : line ≠ [], isDelim (line.getLast h) = true := by
    intro h
    have e : line.getLast h = '\n' := by
      have := List.getLast?_eq_getLast line h
      rw [hnl] at this
      exact (Option.some.inj this).symm
    rw [e]; decide
  have hmem : ∀ t ∈ spec_tokens line, t ≠ [] ∧ ∀ c ∈ t, isDelim c = false := by
    intro t ht
    have h := List.mem_filter.1 ht
    refine ⟨?_, splitOnP_no_delim line t h.1⟩
    intro e
    rw [e] at h
    simp at h
  have hflat : (spec_tokens line).flatten = line.filter (fun c => !isDelim c) := by
    rw [spec_tokens, flatten_filter_nonempty, flatten_splitOnP]
  refine ⟨?_, hmem, hflat, ?_⟩
  · have h := tokenize_loop_eq line [] [] (by simp) hlast (fun h => absurd h hne)
      (by simpa using hcount) (by simpa using hlen)
    simpa [tokenize] using h
  · intro hall
    have hnil : line.filter (fun c => !isDelim c) = [] := by
      rw [List.filter_eq_nil_iff]
      intro c hc
      simp [hall c hc]
    rw [hnil] at hflat
    cases hs : spec_tokens line with
    | nil => rfl
    | cons t ts =>
      rw [hs] at hflat hmem
      have h1 := (hmem t (List.mem_cons_self _ _)).1
      have h2 : t = [] := by
        have := congrArg List.length hflat
        simp only [List.flatten_cons, List.length_append, List.length_nil] at this
        exact List.length_eq_zero.1 (by omega)
      exact absurd h2 h1

/-- The line "  ls   -la \t /tmp \n" yields the tokens ls, -la and /tmp. -/
theorem tokenize_maximal_runs_witness :
    tokenize "  ls   -la \t /tmp \n".toList = some ["ls".toList, "-la".toList, "/tmp".toList] :=
  (tokenize_maximal_runs "  ls   -la \t /tmp \n".toList (by decide) (by decide) (by decide)).1.trans
    (by decide)

/-- The entries after the inner loop of `update_child_process_array`: positions `j .. j + fuel -
1` hold their right neighbour, the others are unchanged. -/
theorem shift_loop_getElem? (fuel : Nat) : ∀ (j : Nat) (cp : List Int), j + fuel < cp.length →
    ∀ k, (shift_loop fuel j cp)[k]? = if j ≤ k ∧ k < j + fuel then cp[k + 1]? else cp[k]? := by
  induction fuel with
  | zero =>
    intro j cp _ k
    have : ¬ (j ≤ k ∧ k < j + 0) := by omega
    rw [if_neg this, shift_loop]
  | succ fuel ih =>
    intro j cp h k
    rw [shift_loop, ih (j + 1) _ (by simp; omega) k]
    have hj1 : j + 1 < cp.length := by omega
    simp only [List.getD_eq_getElem?_getD, List.getElem?_eq_getElem hj1, Option.getD_some,
      List.getElem?_set]
    by_cases h1 : j + 1 ≤ k ∧ k < j + 1 + fuel
    · have h2 : j ≤ k ∧ k < j + (fuel + 1) := by omega
      have h3 : ¬ j = k + 1 := by omega
      simp [h1, h2, h3]
    · by_cases h4 : j = k
      · subst h4
        have h2 : j ≤ j ∧ j < j + (fuel + 1) := by omega
        have h5 : j < cp.length := by omega
        simp [h2, h5, List.getElem?_eq_getElem hj1]
      · have h2 : ¬ (j ≤ k ∧ k < j + (fuel + 1)) := by omega
        simp [h1, h2, h4]

/-- The first `n - 1` entries after the shift from position `i` are the first `n` entries with
position `i` removed. -/
theorem shift_loop_take (n i : Nat) (cp : List Int) (hi : i < n) (hn : n ≤ cp.length) :
    (shift_loop (n - 1 - i) i cp).take (n - 1) = (cp.take n).eraseIdx i := by
  apply List.ext_getElem?
  intro k
  rw [List.getElem?_take, List.getElem?_eraseIdx]
  by_cases hk : k < n - 1
  · rw [if_pos hk, shift_loop_getElem? _ _ _ (by omega)]
    by_cases hki : k < i
    · have : ¬ (i ≤ k ∧ k < i + (n - 1 - i)) := by omega
      rw [if_neg this, if_pos hki, List.getElem?_take, if_pos (by omega)]
    · have : i ≤ k ∧ k < i + (n - 1 - i) := by omega
      rw [if_pos this, if_neg hki, List.getElem?_take, if_pos (by omega)]
  · rw [if_neg hk]
    have hki : ¬ k < i := by omega
    rw [if_neg hki, List.getElem?_take, if_neg (by omega)]

/-- Erasing `p` from the first `n` entries removes position `i`, when `i` is the first position
that holds `p`. -/
theorem erase_take_of_first (n i : Nat) (p : Int) (cp : List Int) (hi : i < n)
    (hn : n ≤ cp.length) (hpre : p ∉ cp.take i) (hp : cp.getD i 0 = p) :
    (cp.take n).erase p = (cp.take n).eraseIdx i := by
  have hil : i < cp.length := by omega
  have hp' : cp[i] = p := by
    rw [← hp, List.getD_eq_getElem _ _ hil]
  have hsplit : cp.take n = cp.take i ++ p :: (cp.drop (i + 1)).take (n - (i + 1)) := by
    have h1 : cp.take n = (cp.take i ++ cp.drop i).take n := by rw [List.take_append_drop]
    rw [h1, List.take_append_eq_append_take, List.take_take, List.length_take,
      List.drop_eq_getElem_cons hil, hp']
    have h2 : min n i = i := by omega
    have h3 : n - min i cp.length = (n - (i + 1)) + 1 := by omega
    rw [h2, h3, List.take_succ_cons]
  have hlen : (cp.take i).length = i := by simp; omega
  rw [hsplit, List.erase_append_right _ hpre, List.erase_cons_head,
    List.eraseIdx_append_of_length_le (by omega)]
  simp [hlen]

/-- The outer loop of `update_child_process_array`, started at position `i` with `p` not among
the entries before `i`. -/
theorem search_loop_spec (p : Int) (n : Nat) (fuel : Nat) : ∀ (i : Nat) (cp : List Int),
    i + fuel = n → n ≤ cp.length → p ∉ cp.take i →
    (p ∈ cp.take n → (search_loop p (n : Int) fuel i cp).take (n - 1) = (cp.take n).erase p) ∧
    (p ∉ cp.take n → search_loop p (n : Int) fuel i cp = cp) := by
  induction fuel with
  | zero =>
    intro i cp hi _ hpre
    have : i = n := by omega
    subst this
    exact ⟨fun h => absurd h hpre, fun _ => rfl⟩
  | succ fuel ih =>
    intro i cp hi hn hpre
    have hin : i < n := by omega
    have hil : i < cp.length := by omega
    rw [search_loop]
    by_cases hp : cp.getD i 0 = p
    · rw [if_pos hp]
      have hfuel : ((n : Int) - 1 - (i : Int)).toNat = n - 1 - i := by omega
      have hmem : p ∈ cp.take n := by
        rw [List.mem_take_iff_getElem]
        refine ⟨i, by omega, ?_⟩
        rw [← hp, List.getD_eq_getElem _ _ hil]
      refine ⟨fun _ => ?_, fun h => absurd hmem h⟩
      rw [hfuel, shift_loop_take n i cp hin hn, erase_take_of_first n i p cp hin hn hpre hp]
    · rw [if_neg hp]
      apply ih (i + 1) cp (by omega) hn
      rw [List.take_succ, List.getElem?_eq_getElem hil]
      intro h
      rcases List.mem_append.1 h with h | h
      · exact hpre h
      · simp at h
        apply hp
        rw [List.getD_eq_getElem _ _ hil, h]

/-- C5: for a job table of 64 slots with logical count `n`, `0 ≤ n ≤ 64`, and every process id `p`,
`update_child_process_array` decrements the count by one; if `p` is among the first `n` entries,
the first `n - 1` entries afterwards are the first `n` entries with the first occurrence of `p`
erased, the others in their order; if `p` is not among them, the entries are unchanged. -/
theorem update_child_process_array_erases (s : Shell) (p : Int)
    (hlen : s.child_process.length = 64)
    (h0 : 0 ≤ s.child_process_idx) (h64 : s.child_process_idx ≤ 64) :
    (update_child_process_array s p).child_process_idx = s.child_process_idx - 1 ∧
    (p ∈ s.child_process.take s.child_process_idx.toNat →
      (update_child_process_array s p).child_process.take (s.child_process_idx.toNat - 1) =
        (s.child_process.take s.child_process_idx.toNat).erase p) ∧
    (p ∉ s.child_process.take s.child_process_idx.toNat →
      (update_child_process_array s p).child_process = s.child_process) := by
  have hn : (s.child_process_idx.toNat : Int) = s.child_process_idx := Int.toNat_of_nonneg h0
  have hle : s.child_process_idx.toNat ≤ s.child_process.length := by omega
  have h := search_loop_spec p s.child_process_idx.toNat s.child_process_idx.toNat 0
    s.child_process (by omega) hle (by simp)
  rw [hn] at h
  exact ⟨rfl, h.1, h.2⟩

/-- Removing the id 7 from the job table 7, 9, 7, 4: the first occurrence goes, the count
becomes 3. -/
theorem update_child_process_array_erases_witness :
    (update_child_process_array four_jobs 7).child_process_idx = 3 ∧
    (update_child_process_array four_jobs 7).child_process.take 3 = [9, 7, 4] :=
  have h := update_child_process_array_erases four_jobs 7 (by decide) (by decide) (by decide)
  ⟨h.1, (h.2.1 (by decide)).trans (by decide)⟩

/-- On delimiters only, the loop of `tokenize` finds no token. -/
theorem tokenize_loop_blank (line : List Char) (h : ∀ c ∈ line, isDelim c = true) :
    tokenize_loop line [] [] = some [] := by
  induction line with
  | nil => rfl
  | cons c cs ih =>
    have hc : isDelim c = true := h c (List.mem_cons_self _ _)
    rw [tokenize_loop, if_pos hc]
    simpa [MAX_TOKEN_SIZE] using ih (fun d hd => h d (List.mem_cons_of_mem _ hd))

/-- Within the capacities, `tokenize` returns the tokens of the input line, newline appended. -/
theorem tokenize_line (line : List Char)
    (hcount : (line_tokens line).length ≤ 63)
    (hlen : ∀ t ∈ line_tokens line, t.length ≤ 63) :
    tokenize (line ++ ['\n']) = some (line_tokens line) := by
  have hlast : ∀ h : line ++ ['\n'] ≠ [], isDelim ((line ++ ['\n']).getLast h) = true := by
    intro h
    rw [List.getLast_append_singleton]
    decide
  have h := tokenize_loop_eq (line ++ ['\n']) [] [] (by simp) hlast
    (fun h => absurd h (by simp)) (by simpa [line_tokens] using hcount)
    (by simpa [line_tokens] using hlen)
  simpa [tokenize, line_tokens] using h

/-- A line that fits the line buffer and the capacities of the tokenizer is tokenized, and its
tokens are scanned and dispatched. -/
theorem main_line_eq (env : LineEnv) (s : Shell) (line : List Char)
    (hline : line.length ≤ 1022)
    (hcount : (line_tokens line).length ≤ 63)
    (hlen : ∀ t ∈ line_tokens line, t.length ≤ 63) :
    main_line env s line = main_tokens env s (line_tokens line) := by
  have hfit : ¬ MAX_INPUT_SIZE < line.length + 2 := by
    simp only [MAX_INPUT_SIZE]; omega
  rw [main_line, if_neg hfit, tokenize_line line hcount hlen]

/-- A line of spaces and tabs has no token. -/
theorem line_tokens_blank (line : List Char) (h : ∀ c ∈ line, c = ' ' ∨ c = '\t') :
    line_tokens line = [] := by
  have hall : ∀ c ∈ line ++ ['\n'], isDelim c = true := by
    intro c hc
    rcases List.mem_append.1 hc with hc | hc
    · rcases h c hc with rfl | rfl <;> decide
    · simp at hc; subst hc; decide
  have hflat : (line_tokens line).flatten = [] := by
    rw [line_tokens, spec_tokens, flatten_filter_nonempty, flatten_splitOnP,
      List.filter_eq_nil_iff]
    intro c hc
    simp [hall c hc]
  cases hs : line_tokens line with
  | nil => rfl
  | cons t ts =>
    exfalso
    have hmem : t ∈ spec_tokens (line ++ ['\n']) := by
      have : t ∈ line_tokens line := by rw [hs]; exact List.mem_cons_self _ _
      exact this
    have hne : t ≠ [] := by
      intro e
      have h2 := (List.mem_filter.1 hmem).2
      rw [e] at h2
      simp at h2
    rw [hs] at hflat
    have := congrArg List.length hflat
    simp only [List.flatten_cons, List.length_append, List.length_nil] at this
    exact hne (List.length_eq_zero.1 (by omega))

/-- The collecting loop changes nothing but the job table, and its trace holds only its calls
of `waitpid` and its notices. -/
theorem main_reap_frame (results : List Int) :
    ∀ (s : Shell) (tr : List Event),
      (main_reap results s tr).1.foreground_pid = s.foreground_pid ∧
      (main_reap results s tr).1.sigint = s.sigint ∧
      (main_reap results s tr).1.fds = s.fds ∧
      ∃ tr1, (main_reap results s tr).2 = tr ++ tr1 ∧
        ∀ e ∈ tr1, (∃ r, e = Event.waitpid_any r) ∨ ∃ pid, e = Event.stdout (.finished pid) := by
  induction results with
  | nil =>
    intro s tr
    exact ⟨rfl, rfl, rfl, [], by simp [main_reap], by simp⟩
  | cons r rs ih =>
    intro s tr
    rw [main_reap]
    by_cases hr : r ≤ 0
    · rw [if_pos hr]
      refine ⟨rfl, rfl, rfl, [.waitpid_any r], rfl, ?_⟩
      intro e he
      simp at he
      exact Or.inl ⟨r, he⟩
    · rw [if_neg hr]
      obtain ⟨h1, h2, h3, tr1, h4, h5⟩ := ih (update_child_process_array s r)
        (tr ++ [.waitpid_any r, .stdout (.finished r)])
      refine ⟨h1, h2, h3, [.waitpid_any r, .stdout (.finished r)] ++ tr1, ?_, ?_⟩
      · rw [h4, List.append_assoc]
      · intro e he
        rcases List.mem_append.1 he with he | he
        · simp at he
          rcases he with he | he
          · exact Or.inl ⟨r, he⟩
          · exact Or.inr ⟨r, he⟩
        · exact h5 e he

/-- C6, amended: for a line of at most 1022 characters that consists of spaces and tabs only
(the empty line included), one iteration of the interpreter collects the finished children,
prints the prompt, calls `execute_command` on the empty command, which reports "no such
command" once, and returns: nothing is launched (the trace has no fork, pipe or exec), the
foreground designation, the interrupt disposition and the descriptors are unchanged, and the
job table is changed by the collecting of finished children only: it is unchanged when the
first `waitpid` finds none. -/
theorem main_iteration_blank (results : List Int) (env : LineEnv) (s : Shell)
    (line : List Char) (hline : line.length ≤ 1022) (h : ∀ c ∈ line, c = ' ' ∨ c = '\t') :
    main_iteration results env s line =
      .returned (main_reap results s []).1
        ((main_reap results s []).2 ++
          [.stdout .prompt, .call_execute_command [] 1, .stderr .no_such_command, .ret]) ∧
    (∀ e ∈ (main_reap results s []).2,
      (∃ r, e = Event.waitpid_any r) ∨ ∃ pid, e = Event.stdout (.finished pid)) ∧
    (main_reap results s []).1.foreground_pid = s.foreground_pid ∧
    (main_reap results s []).1.sigint = s.sigint ∧
    (main_reap results s []).1.fds = s.fds ∧
    ((∀ r, results.head? = some r → r ≤ 0) → (main_reap results s []).1 = s) := by
  have hnil := line_tokens_blank line h
  have hrun : ∀ s1 : Shell, main_line env s1 line =
      .returned s1 [.call_execute_command [] 1, .stderr .no_such_command, .ret] := by
    intro s1
    rw [main_line_eq env s1 line hline (by rw [hnil]; simp) (by rw [hnil]; simp), hnil]
    rfl
  obtain ⟨h1, h2, h3, tr1, h4, h5⟩ := main_reap_frame results s []
  refine ⟨?_, ?_, h1, h2, h3, ?_⟩
  · rw [main_iteration]
    simp only [hrun, List.append_assoc, List.singleton_append]
  · intro e he
    rw [h4, List.nil_append] at he
    exact h5 e he
  · intro hhead
    cases results with
    | nil => rfl
    | cons r rs =>
      have hr : r ≤ 0 := hhead r rfl
      rw [main_reap, if_pos hr]

/-- The line of two spaces, a tab and a space, with no finished child: one "no such command",
and the state unchanged. -/
theorem main_iteration_blank_witness :
    main_iteration [0] (line_env none) startup [' ', ' ', '\t', ' '] =
      .returned startup
        [.waitpid_any 0, .stdout .prompt, .call_execute_command [] 1, .stderr .no_such_command,
          .ret] :=
  (main_iteration_blank [0] (line_env none) startup [' ', ' ', '\t', ' '] (by decide)
    (by decide)).1.trans (by decide)

set_option maxRecDepth 1000000 in
/-- C6 fails as stated: a line of 1023 spaces fills the line buffer, so that the newline that
`main` appends replaces the only NUL and the string that `tokenize` reads does not end inside
the buffer; and when the child 100 of an earlier "sleep 1 &" has finished, the iteration on the
empty line collects it and the count of the job table goes from 1 to 0. -/
theorem blank_line_counterexample :
    main_iteration [0] (line_env none) startup blank_line_1023 =
      .stopped .undefined [.waitpid_any 0, .stdout .prompt] ∧
    execute_command parent_env startup ["sleep".toList, "1".toList, "&".toList] 4 =
      .returned one_job [.fork 100] ∧
    main_iteration [100, 0] (line_env none) one_job [] =
      .returned { one_job with child_process_idx := 0 }
        [.waitpid_any 100, .stdout (.finished 100), .waitpid_any 0, .stdout .prompt,
          .call_execute_command [] 1, .stderr .no_such_command, .ret] ∧
    ({ one_job with child_process_idx := 0 } : Shell) ≠ one_job := by
  decide

/-- C3, amended: for a command `t0 rest.. &` whose first token is neither `cd` nor `exit`, with
fewer than 64 jobs in the table and a `fork` that succeeds, `execute_command` in the
interpreter forks once and returns without waiting, the child's id appended to the job table;
in the child the marker is stripped and the program is run on exactly `t0 rest..`. -/
theorem execute_command_background (env : Env) (s : Shell) (t0 : Token) (rest : List Token)
    (hcd : t0 ≠ "cd".toList) (hexit : t0 ≠ "exit".toList)
    (hlen : s.child_process.length = 64)
    (h0 : 0 ≤ s.child_process_idx) (hroom : s.child_process_idx < 64)
    (hfork : 0 < env.fork_result) :
    execute_command env s (t0 :: (rest ++ ["&".toList])) ((t0 :: (rest ++ ["&".toList])).length + 1) =
        .returned
          { s with
            child_process := s.child_process.set s.child_process_idx.toNat env.fork_result
            child_process_idx := s.child_process_idx + 1 }
          [.fork env.fork_result] ∧
    (s.child_process.set s.child_process_idx.toNat env.fork_result).take
        (s.child_process_idx + 1).toNat =
      s.child_process.take s.child_process_idx.toNat ++ [env.fork_result] ∧
    execute_command { env with fork_result := 0, exec_ok := true } s (t0 :: (rest ++ ["&".toList]))
        ((t0 :: (rest ++ ["&".toList])).length + 1) =
      .stopped (.exec (t0 :: rest) s.fds) [.fork 0, .execvp (t0 :: rest)] := by
  have hget : (t0 :: (rest ++ ["&".toList])).get? ((t0 :: (rest ++ ["&".toList])).length + 1 - 2) =
      some "&".toList := by
    have : (t0 :: (rest ++ ["&".toList])).length + 1 - 2 = rest.length + 1 := by simp
    rw [this, List.get?_eq_getElem?]
    simp
  have htake : (t0 :: (rest ++ ["&".toList])).take ((t0 :: (rest ++ ["&".toList])).length + 1 - 2) =
      t0 :: rest := by
    have : (t0 :: (rest ++ ["&".toList])).length + 1 - 2 = rest.length + 1 := by simp
    rw [this]
    simp
  have h3 : 3 ≤ (t0 :: (rest ++ ["&".toList])).length + 1 := by simp
  have hn64 : ¬ 64 ≤ s.child_process_idx := by omega
  have hn0 : ¬ s.child_process_idx < 0 := by omega
  refine ⟨?_, ?_, ?_⟩
  · have hf1 : env.fork_result ≠ -1 := by omega
    have hf0 : env.fork_result ≠ 0 := by omega
    rw [execute_command.eq_def]; simp only []; rw [if_neg hcd, if_neg hexit, if_pos h3, hget]
    simp only [execute_background, if_true, if_neg hn64, if_neg hn0, if_pos hroom, if_neg hf1,
      if_neg hf0]
  · have hidx : s.child_process_idx.toNat < s.child_process.length := by omega
    have e : (s.child_process_idx + 1).toNat = s.child_process_idx.toNat + 1 := by omega
    rw [e, List.take_succ, List.getElem?_set_self hidx, List.set_take,
      List.set_eq_of_length_le (by simp)]
    rfl
  · rw [execute_command.eq_def]; simp only []; rw [if_neg hcd, if_neg hexit, if_pos h3, hget]
    simp only [execute_background, if_true, if_neg hn64, if_neg hn0, if_pos hroom, htake]
    simp

/-- C3 fails as stated: `cd /tmp &` ends in an ordinary token and the marker, but the test for
`cd` comes first, so the directory is changed and nothing is forked; and with 64 jobs in the
table `sleep 1 &` is refused before the marker is stripped and before any fork. -/
theorem background_marker_counterexample :
    execute_command parent_env startup ["cd".toList, "/tmp".toList, "&".toList] 4 =
      .returned startup [.chdir (some "/tmp".toList)] ∧
    execute_command parent_env full_table ["sleep".toList, "1".toList, "&".toList] 4 =
      .returned full_table [.stderr .background_limit] := by
  decide

/-- The command `sleep 1 &` at start-up: one fork, the id 100 in the first slot of the job
table, no wait; the child runs `sleep 1`. -/
theorem execute_command_background_witness :
    execute_command parent_env startup ("sleep".toList :: (["1".toList] ++ ["&".toList])) 4 =
      .returned
        { startup with child_process := 100 :: List.replicate 63 0, child_process_idx := 1 }
        [.fork 100] ∧
    execute_command { parent_env with fork_result := 0 } startup
        ("sleep".toList :: (["1".toList] ++ ["&".toList])) 4 =
      .stopped (.exec ["sleep".toList, "1".toList] startup.fds)
        [.fork 0, .execvp ["sleep".toList, "1".toList]] :=
  have h := execute_command_background parent_env startup "sleep".toList ["1".toList]
    (by decide) (by decide) (by decide) (by decide) (by decide) (by decide)
  ⟨h.1, h.2.2⟩

/-- C4 fails as stated: with 64 jobs in the table, the background command `ls &` reports the
capacity error and returns before `fork`; no process is launched. -/
theorem full_table_counterexample :
    execute_command parent_env full_table ["ls".toList, "&".toList] 3 =
      .returned full_table [.stderr .background_limit] ∧
    ∀ r, Event.fork r ∉
      (execute_command parent_env full_table ["ls".toList, "&".toList] 3).trace := by
  have h : execute_command parent_env full_table ["ls".toList, "&".toList] 3 =
      .returned full_table [.stderr .background_limit] := by decide
  refine ⟨h, fun r => ?_⟩
  rw [h]
  simp [Outcome.trace]

/-- C4, amended: when the job table holds 64 entries and a background command (first token
neither `cd` nor `exit`, last token `&`) is submitted, `execute_command` reports the capacity
error and returns at once: the table and the rest of the state are unchanged and no process is
launched, whatever the system calls would return. -/
theorem execute_command_table_full (env : Env) (s : Shell) (t0 : Token) (rest : List Token)
    (hcd : t0 ≠ "cd".toList) (hexit : t0 ≠ "exit".toList)
    (hfull : s.child_process_idx = 64) :
    execute_command env s (t0 :: (rest ++ ["&".toList]))
        ((t0 :: (rest ++ ["&".toList])).length + 1) =
      .returned s [.stderr .background_limit] := by
  have hget : (t0 :: (rest ++ ["&".toList])).get? ((t0 :: (rest ++ ["&".toList])).length + 1 - 2) =
      some "&".toList := by
    have : (t0 :: (rest ++ ["&".toList])).length + 1 - 2 = rest.length + 1 := by simp
    rw [this, List.get?_eq_getElem?]
    simp
  have h3 : 3 ≤ (t0 :: (rest ++ ["&".toList])).length + 1 := by simp
  rw [execute_command.eq_def]
  simp only []
  rw [if_neg hcd, if_neg hexit, if_pos h3, hget]
  simp only [execute_background, if_true, if_pos (show (64 : Int) ≤ s.child_process_idx by omega)]

/-- With 64 jobs in the table, `sleep 1 &` only reports the capacity error. -/
theorem execute_command_table_full_witness :
    execute_command parent_env full_table ("sleep".toList :: (["1".toList] ++ ["&".toList])) 4 =
      .returned full_table [.stderr .background_limit] :=
  execute_command_table_full parent_env full_table "sleep".toList ["1".toList]
    (by decide) (by decide) (by decide)

/-- The marks of a concatenated trace. -/
theorem marks_append (a b : List Event) : marks (a ++ b) = marks a ++ marks b := by
  simp [marks]

/-- A run of `execute_command` leaves no call or return mark of its own. -/
theorem marks_execute_command (env : Env) (s : Shell) (tokens : List Token) (n : Nat) :
    marks (execute_command env s tokens n).trace = [] := by
  unfold execute_command execute_background execute_foreground
  repeat' split
  all_goals simp [marks, Outcome.trace, List.filter]

/-- In the interpreter process (`fork` does not return 0), on a command other than `exit`, with
a job count that is not negative, `execute_command` returns, and the job count is still not
negative. -/
theorem execute_command_returns (env : Env) (s : Shell) (tokens : List Token)
    (hfork : env.fork_result ≠ 0) (h0 : 0 ≤ s.child_process_idx)
    (hexit : tokens.head? ≠ some "exit".toList) :
    ∃ s1 tr1, execute_command env s tokens (tokens.length + 1) = .returned s1 tr1 ∧
      0 ≤ s1.child_process_idx := by
  cases tokens with
  | nil => exact ⟨s, _, rfl, h0⟩
  | cons t0 rest =>
    have hne : t0 ≠ "exit".toList := by simpa using hexit
    rw [execute_command.eq_def]
    simp only []
    by_cases hcd : t0 = "cd".toList
    · rw [if_pos hcd]
      cases rest with
      | nil => exact ⟨s, _, rfl, h0⟩
      | cons t1 r => exact ⟨s, _, rfl, h0⟩
    · rw [if_neg hcd, if_neg hne]
      have hfg : ∃ s1 tr1, execute_foreground env s (t0 :: rest) = .returned s1 tr1 ∧
          0 ≤ s1.child_process_idx := by
        unfold execute_foreground
        simp only [if_neg hfork]
        by_cases hpos : 0 < env.fork_result
        · rw [if_pos hpos]; exact ⟨_, _, rfl, h0⟩
        · rw [if_neg hpos]; exact ⟨_, _, rfl, h0⟩
      by_cases h3 : 3 ≤ (t0 :: rest).length + 1
      · rw [if_pos h3]
        have hlt : (t0 :: rest).length + 1 - 2 < (t0 :: rest).length := by
          simp only [List.length_cons] at h3 ⊢; omega
        rw [List.get?_eq_getElem?, List.getElem?_eq_getElem hlt]
        simp only []
        by_cases hamp : (t0 :: rest)[(t0 :: rest).length + 1 - 2] = "&".toList
        · rw [if_pos hamp]
          unfold execute_background
          by_cases h64 : 64 ≤ s.child_process_idx
          · rw [if_pos h64]; exact ⟨s, _, rfl, h0⟩
          · rw [if_neg h64]
            simp only [if_neg (not_lt.2 h0), if_neg hfork]
            refine ⟨_, _, rfl, ?_⟩
            split
            · show 0 ≤ s.child_process_idx + 1
              omega
            · exact h0
        · rw [if_neg hamp]; exact hfg
      · rw [if_neg h3]; exact hfg

/-- Prepending `t` and then `cmd` to the first segment prepends `cmd ++ [t]`. -/
theorem modifyHead_modifyHead_append (cmd : List Token) (t : Token) (L : List (List Token)) :
    (L.modifyHead (List.cons t)).modifyHead (fun x => cmd ++ x) =
      L.modifyHead (fun x => (cmd ++ [t]) ++ x) := by
  cases L with
  | nil => rfl
  | cons a L => simp [List.modifyHead]

/-- The marks of a first segment followed by others. -/
theorem sequential_calls_cons (seg : List Token) (L : List (List Token)) :
    sequential_calls (seg :: L) =
      [.call_execute_command seg (seg.length + 1), .ret] ++ sequential_calls L := by
  simp [sequential_calls]

/-- The marks of at least one segment are not empty. -/
theorem sequential_calls_ne_nil (L : List (List Token)) (h : L ≠ []) :
    sequential_calls L ≠ [] := by
  cases L with
  | nil => exact absurd rfl h
  | cons a L => simp [sequential_calls]

/-- A call is a mark. -/
theorem marks_call (tokens : List Token) (n : Nat) (l : List Event) :
    marks (.call_execute_command tokens n :: l) = .call_execute_command tokens n :: marks l := rfl

/-- A return is a mark. -/
theorem marks_ret (l : List Event) : marks (.ret :: l) = .ret :: marks l := rfl

/-- The empty trace has no marks. -/
theorem marks_nil : marks [] = [] := rfl

/-- Splitting at a leading separator starts a new segment. -/
theorem splitOn_cons_sep (a : Token) (rest : List Token) :
    (a :: rest).splitOn a = [] :: rest.splitOn a := by
  rw [List.splitOn, List.splitOnP_cons, if_pos (beq_self_eq_true a)]
  rfl

/-- Splitting after a leading ordinary token prepends it to the first segment. -/
theorem splitOn_cons_other (a t : Token) (rest : List Token) (h : t ≠ a) :
    (t :: rest).splitOn a = (rest.splitOn a).modifyHead (List.cons t) := by
  rw [List.splitOn, List.splitOnP_cons, if_neg (by simpa using h)]
  rfl

/-- The scan of `main` on tokens without `|`, from any point of the scan: the calls of
`execute_command` are the segments between the `&&` tokens, the first one extended by the
tokens gathered so far. -/
theorem main_rest_sequential (env : LineEnv) (hfork : ∀ k, (env.calls k).fork_result ≠ 0)
    (tokens : List Token) :
    ∀ (sc : Scan) (tr : List Event),
      "|".toList ∉ tokens → sc.pipe_command = false →
      sc.command.length + tokens.length ≤ 63 → 0 ≤ sc.s.child_process_idx →
      (∀ seg ∈ ((tokens.splitOn "&&".toList).modifyHead (fun x => sc.command ++ x)).dropLast,
        seg.head? ≠ some "exit".toList) →
      marks (main_rest env tokens sc tr).trace = marks tr ++
          sequential_calls ((tokens.splitOn "&&".toList).modifyHead (fun x => sc.command ++ x)) ∨
      marks (main_rest env tokens sc tr).trace = marks tr ++
          (sequential_calls
            ((tokens.splitOn "&&".toList).modifyHead (fun x => sc.command ++ x))).dropLast := by
  induction tokens with
  | nil =>
    intro sc tr _ hpc hlen h0 _
    have hb : sc.command.length < MAX_NUM_TOKENS := by
      simp only [List.length_nil, MAX_NUM_TOKENS] at hlen ⊢; omega
    have hm := marks_execute_command (env.calls sc.calls) sc.s sc.command (sc.command.length + 1)
    simp only [main_rest, main_scan, main_dispatch, hpc, not_not.2 hb, if_false, Bool.false_eq_true]
    simp only [List.splitOn, List.splitOnP_nil, List.modifyHead, List.append_nil,
      sequential_calls_cons]
    cases hx : execute_command (env.calls sc.calls) sc.s sc.command (sc.command.length + 1) with
    | returned s1 tr1 =>
      left
      rw [hx] at hm
      simp only [Outcome.trace] at hm
      simp [marks_append, hm, sequential_calls, Outcome.trace, marks_call, marks_ret, marks_nil]
    | stopped how tr1 =>
      right
      rw [hx] at hm
      simp only [Outcome.trace] at hm
      simp [marks_append, hm, sequential_calls, Outcome.trace, marks_call, marks_nil]
  | cons t rest ih =>
    intro sc tr hbar hpc hlen h0 hseg
    have hb : sc.command.length < MAX_NUM_TOKENS := by
      simp only [List.length_cons, MAX_NUM_TOKENS] at hlen ⊢; omega
    have hbar' : "|".toList ∉ rest := fun h => hbar (List.mem_cons_of_mem _ h)
    have htb : t ≠ "|".toList := fun h => hbar (h ▸ List.mem_cons_self _ _)
    have hL : rest.splitOnP (fun x => x == "&&".toList) ≠ [] := List.splitOnP_ne_nil _ _
    by_cases hand : t = "&&".toList
    · have hsplit : (t :: rest).splitOn "&&".toList = [] :: rest.splitOn "&&".toList := by
        rw [hand]; exact splitOn_cons_sep _ _
      rw [hsplit] at hseg ⊢
      simp only [List.modifyHead, List.append_nil] at hseg ⊢
      have hhead : sc.command.head? ≠ some "exit".toList := by
        apply hseg
        rw [List.dropLast_cons_of_ne_nil (by simpa [List.splitOn] using hL)]
        exact List.mem_cons_self _ _
      obtain ⟨s1, tr1, hx, h1⟩ :=
        execute_command_returns (env.calls sc.calls) sc.s sc.command (hfork _) h0 hhead
      have hm := marks_execute_command (env.calls sc.calls) sc.s sc.command (sc.command.length + 1)
      rw [hx] at hm
      simp only [Outcome.trace] at hm
      have hstep : main_rest env (t :: rest) sc tr =
          main_rest env rest { sc with s := s1, command := [], calls := sc.calls + 1 }
            (tr ++ [.call_execute_command sc.command (sc.command.length + 1)] ++ tr1 ++ [.ret]) := by
        simp only [main_rest, main_scan, not_not.2 hb, if_false, hand, if_true, hx]
      have hmod : ∀ L : List (List Token), L.modifyHead (fun x => ([] : List Token) ++ x) = L := by
        intro L; cases L <;> rfl
      have := ih { sc with s := s1, command := [], calls := sc.calls + 1 }
        (tr ++ [.call_execute_command sc.command (sc.command.length + 1)] ++ tr1 ++ [.ret])
        hbar' hpc (by simp only [List.length_cons, List.length_nil] at hlen ⊢; omega) h1
        (by
          intro seg hs
          apply hseg
          rw [List.dropLast_cons_of_ne_nil (by simpa [List.splitOn] using hL)]
          simp only [hmod] at hs
          exact List.mem_cons_of_mem _ hs)
      rw [hstep, sequential_calls_cons]
      simp only [hmod] at this
      have hmk : marks (tr ++ [.call_execute_command sc.command (sc.command.length + 1)] ++ tr1 ++
          [.ret]) = marks tr ++ [.call_execute_command sc.command (sc.command.length + 1), .ret] := by
        simp [marks_append, hm, marks_call, marks_ret, marks_nil]
      rw [hmk] at this
      have hne := sequential_calls_ne_nil (rest.splitOn "&&".toList)
        (by simpa [List.splitOn] using hL)
      rcases this with h | h
      · left; rw [h]; simp
      · right
        rw [h, List.dropLast_append_of_ne_nil _ hne]
        simp
    · have hsplit : (t :: rest).splitOn "&&".toList =
          (rest.splitOn "&&".toList).modifyHead (List.cons t) := splitOn_cons_other _ _ _ hand
      rw [hsplit, modifyHead_modifyHead_append] at hseg ⊢
      have hstep : main_rest env (t :: rest) sc tr =
          main_rest env rest { sc with command := sc.command ++ [t] } tr := by
        simp only [main_rest, main_scan, not_not.2 hb, if_false, hand, htb]
      rw [hstep]
      exact ih { sc with command := sc.command ++ [t] } tr hbar' hpc
        (by simp only [List.length_cons, List.length_append, List.length_nil] at hlen ⊢; omega)
        h0 hseg

/-- Changing the first segment keeps the number of segments. -/
theorem length_modifyHead_tokens (f : List Token → List Token) (L : List (List Token)) :
    (L.modifyHead f).length = L.length := by
  cases L <;> rfl

/-- A token list splits into one more segment than it has separators. -/
theorem length_splitOn (a : Token) (tokens : List Token) :
    (tokens.splitOn a).length = tokens.count a + 1 := by
  induction tokens with
  | nil => rfl
  | cons t rest ih =>
    by_cases h : t = a
    · subst h
      rw [splitOn_cons_sep, List.length_cons, ih, List.count_cons_self]
    · rw [splitOn_cons_other _ _ _ h, length_modifyHead_tokens, ih,
        List.count_cons_of_ne (fun e => h e.symm)]

/-- Whatever `tokenize` returns has fewer than 64 tokens. -/
theorem tokenize_loop_length (line : List Char) :
    ∀ (token : List Char) (tokens result : List Token),
      tokenize_loop line token tokens = some result → result.length < MAX_NUM_TOKENS := by
  induction line with
  | nil =>
    intro token tokens result h
    rw [tokenize_loop] at h
    split at h
    · cases h; assumption
    · cases h
  | cons c cs ih =>
    intro token tokens result h
    rw [tokenize_loop] at h
    repeat' split at h
    all_goals first | cases h | exact ih _ _ _ h

/-- C7, amended: for a line of at most 1022 characters with at most 63 tokens of at most 63
characters each, whose tokens contain no `|`, processed in the interpreter process from a state
whose job count is not negative, when no segment before the last one starts with `exit`: the
line is tokenized, the tokens split into one more segment than there are `&&` tokens, and the
calls of `execute_command` are exactly these segments, in order, each with `no_of_tokens` the
segment length plus one and each returned before the next (the last call may end the
process), whatever the system calls of the commands return. -/
theorem main_line_sequencing (env : LineEnv) (s : Shell) (line : List Char)
    (hline : line.length ≤ 1022)
    (hcount : (line_tokens line).length ≤ 63)
    (hlen : ∀ t ∈ line_tokens line, t.length ≤ 63)
    (hbar : "|".toList ∉ line_tokens line)
    (hfork : ∀ k, (env.calls k).fork_result ≠ 0)
    (h0 : 0 ≤ s.child_process_idx)
    (hexit : ∀ seg ∈ ((line_tokens line).splitOn "&&".toList).dropLast,
      seg.head? ≠ some "exit".toList) :
    tokenize (line ++ ['\n']) = some (line_tokens line) ∧
    ((line_tokens line).splitOn "&&".toList).length =
      (line_tokens line).count "&&".toList + 1 ∧
    (marks (main_line env s line).trace =
        sequential_calls ((line_tokens line).splitOn "&&".toList) ∨
     marks (main_line env s line).trace =
       (sequential_calls ((line_tokens line).splitOn "&&".toList)).dropLast) := by
  have hmod : ∀ L : List (List Token), L.modifyHead (fun x => ([] : List Token) ++ x) = L := by
    intro L; cases L <;> rfl
  have h := main_rest_sequential env hfork (line_tokens line)
    { s := s, command := [], pipe_commands := [], pipe_command := false, calls := 0 } []
    hbar rfl (by simp only [List.length_nil]; omega) h0
    (by simpa only [hmod] using hexit)
  rw [hmod] at h
  simp only [marks_nil, List.nil_append] at h
  refine ⟨tokenize_line line hcount hlen, length_splitOn _ _, ?_⟩
  rw [main_line_eq env s line hline hcount hlen]
  exact h

/-- The line "cd /tmp && ls && pwd": three segments, called one after the other. -/
theorem main_line_sequencing_witness :
    marks (main_line (line_env none) startup "cd /tmp && ls && pwd".toList).trace =
        [.call_execute_command ["cd".toList, "/tmp".toList] 3, .ret,
          .call_execute_command ["ls".toList] 2, .ret,
          .call_execute_command ["pwd".toList] 2, .ret] ∨
      marks (main_line (line_env none) startup "cd /tmp && ls && pwd".toList).trace =
        [.call_execute_command ["cd".toList, "/tmp".toList] 3, .ret,
          .call_execute_command ["ls".toList] 2, .ret,
          .call_execute_command ["pwd".toList] 2] :=
  have h := main_line_sequencing (line_env none) startup "cd /tmp && ls && pwd".toList
    (by decide) (by decide) (by decide) (by decide)
    (fun _ => show parent_env.fork_result ≠ 0 by decide) (by decide) (by decide)
  have e : sequential_calls
      ((line_tokens "cd /tmp && ls && pwd".toList).splitOn "&&".toList) =
      [.call_execute_command ["cd".toList, "/tmp".toList] 3, .ret,
        .call_execute_command ["ls".toList] 2, .ret,
        .call_execute_command ["pwd".toList] 2, .ret] := by decide
  h.2.2.imp (fun h1 => h1.trans e) (fun h2 => h2.trans (by rw [e]; rfl))

set_option maxRecDepth 1000000 in
/-- C7 fails as stated.  On "exit && ls" (no `|`, one `&&`) the first call of `execute_command`
runs the built-in `exit`, which kills the interpreter's process group: the call does not
return and the segment `ls` is never dispatched, so there is one call instead of two.  And a
line does not reach the scan when it has 64 tokens (the end marker of `tokens` falls outside
the array), a token of 64 characters (the scratch buffer of `tokenize` overflows) or 1023
characters (the string does not end inside the line buffer): no call is made. -/
theorem sequencing_counterexample :
    (tokenize ("exit && ls".toList ++ ['\n']) =
        some ["exit".toList, "&&".toList, "ls".toList] ∧
      main_line (line_env none) startup "exit && ls".toList =
        .stopped .killed [.call_execute_command ["exit".toList] 2, .kill_own_group] ∧
      sequential_calls (["exit".toList, "&&".toList, "ls".toList].splitOn "&&".toList) =
        [.call_execute_command ["exit".toList] 2, .ret,
          .call_execute_command ["ls".toList] 2, .ret]) ∧
    ((line_tokens and_line_64_tokens).length = 64 ∧
      "|".toList ∉ line_tokens and_line_64_tokens ∧
      (line_tokens and_line_64_tokens).count "&&".toList = 1 ∧
      main_line (line_env none) startup and_line_64_tokens = .stopped .undefined []) ∧
    (line_tokens and_line_long_token =
        ["ls".toList, "&&".toList, List.replicate 64 'x'] ∧
      main_line (line_env none) startup and_line_long_token = .stopped .undefined []) ∧
    (and_line_1023.length = 1023 ∧
      line_tokens and_line_1023 = ["ls".toList, "&&".toList, "ls".toList] ∧
      main_line (line_env none) startup and_line_1023 = .stopped .undefined []) := by
  decide

/-- The scan of `main` on tokens without `&&`, from any point of the scan with fewer than 63
stages in all: the stages handed to `execute_pipe_command` are those closed so far followed
by the segments between the `|` tokens. -/
theorem main_rest_pipeline (env : LineEnv) (tokens : List Token) :
    ∀ (sc : Scan) (tr : List Event),
      "&&".toList ∉ tokens →
      sc.command.length + tokens.length ≤ 63 →
      sc.pipe_commands.length + tokens.count "|".toList ≤ 62 →
      (sc.pipe_command = true ∨ "|".toList ∈ tokens) →
      main_rest env tokens sc tr =
        pipe_dispatch env sc.s
          (sc.pipe_commands ++ (tokens.splitOn "|".toList).modifyHead (fun x => sc.command ++ x))
          tr := by
  induction tokens with
  | nil =>
    intro sc tr _ hlen hk hp
    have hpc : sc.pipe_command = true := by
      rcases hp with h | h
      · exact h
      · simp at h
    have hb : sc.command.length < MAX_NUM_TOKENS := by
      simp only [List.length_nil, MAX_NUM_TOKENS] at hlen ⊢; omega
    have hb2 : sc.pipe_commands.length < MAX_NUM_TOKENS := by
      simp only [MAX_NUM_TOKENS]; omega
    have hb3 : (sc.pipe_commands ++ [sc.command]).length < MAX_NUM_TOKENS := by
      simp only [MAX_NUM_TOKENS, List.length_append, List.length_cons, List.length_nil]; omega
    have hnil : ([] : List Token).splitOn "|".toList = [[]] := rfl
    rw [hnil]
    simp only [main_rest, main_scan, main_dispatch, hpc, not_not.2 hb, not_not.2 hb2,
      not_not.2 hb3, if_false, if_true, List.modifyHead, List.append_nil]
  | cons t rest ih =>
    intro sc tr hand hlen hk hp
    have hb : sc.command.length < MAX_NUM_TOKENS := by
      simp only [List.length_cons, MAX_NUM_TOKENS] at hlen ⊢; omega
    have hand' : "&&".toList ∉ rest := fun h => hand (List.mem_cons_of_mem _ h)
    have hta : t ≠ "&&".toList := fun h => hand (h ▸ List.mem_cons_self _ _)
    by_cases hbar : t = "|".toList
    · subst hbar
      rw [List.count_cons_self] at hk
      have hb2 : sc.pipe_commands.length < MAX_NUM_TOKENS := by
        simp only [MAX_NUM_TOKENS]; omega
      have hstep : main_rest env ("|".toList :: rest) sc tr =
          main_rest env rest
            { sc with pipe_command := true, pipe_commands := sc.pipe_commands ++ [sc.command],
                      command := [] } tr := by
        simp only [main_rest, main_scan, not_not.2 hb, if_false, hta, if_true, if_pos hb2]
      have hmod : ∀ L : List (List Token), L.modifyHead (fun x => ([] : List Token) ++ x) = L := by
        intro L; cases L <;> rfl
      rw [hstep]
      refine (ih _ tr hand' ?_ ?_ (Or.inl rfl)).trans ?_
      · simp only [List.length_cons, List.length_nil] at hlen ⊢; omega
      · simp only [List.length_append, List.length_cons, List.length_nil]; omega
      · rw [splitOn_cons_sep, hmod]
        simp only [List.modifyHead, List.append_nil, List.append_assoc, List.singleton_append]
    · have hstep : main_rest env (t :: rest) sc tr =
          main_rest env rest { sc with command := sc.command ++ [t] } tr := by
        simp only [main_rest, main_scan, not_not.2 hb, if_false, hta, hbar]
      rw [List.count_cons_of_ne (fun e => hbar e.symm)] at hk
      rw [hstep]
      refine (ih _ tr hand' ?_ ?_ ?_).trans ?_
      · simp only [List.length_cons, List.length_append, List.length_nil] at hlen ⊢; omega
      · exact hk
      · rcases hp with h | h
        · exact Or.inl h
        · rcases List.mem_cons.1 h with h | h
          · exact absurd h.symm hbar
          · exact Or.inr h
      · rw [splitOn_cons_other _ _ _ hbar, modifyHead_modifyHead_append]

/-- The segments between the separators, concatenated, are the tokens without the separators. -/
theorem flatten_splitOn (a : Token) (tokens : List Token) :
    (tokens.splitOn a).flatten = tokens.filter (fun t => t != a) := by
  induction tokens with
  | nil => rfl
  | cons t rest ih =>
    by_cases h : t = a
    · subst h
      rw [splitOn_cons_sep, List.flatten_cons, List.nil_append, ih]
      simp [List.filter]
    · rw [splitOn_cons_other _ _ _ h,
        flatten_modifyHead_cons _ _ (by simpa [List.splitOn] using List.splitOnP_ne_nil _ rest), ih,
        List.filter_cons_of_pos (by simpa using h)]

/-- C2, amended: for a line of at most 1022 characters with at most 63 tokens of at most 63
characters each, whose tokens contain no `&&` and contain `k` tokens `|` with `1 ≤ k ≤ 62`, the
line is tokenized and the loop body of `main` calls `execute_pipe_command` on exactly the
segments of tokens between the `|` tokens, in order, with `no_of_commands = k + 1`; there are
`k + 1` segments, and the segments concatenated are the tokens without the `|` tokens. -/
theorem main_line_pipeline (env : LineEnv) (s : Shell) (line : List Char)
    (hline : line.length ≤ 1022)
    (hcount : (line_tokens line).length ≤ 63)
    (hlen : ∀ t ∈ line_tokens line, t.length ≤ 63)
    (hand : "&&".toList ∉ line_tokens line)
    (hk1 : 1 ≤ (line_tokens line).count "|".toList)
    (hk2 : (line_tokens line).count "|".toList ≤ 62) :
    tokenize (line ++ ['\n']) = some (line_tokens line) ∧
    main_line env s line = pipe_dispatch env s ((line_tokens line).splitOn "|".toList) [] ∧
    (main_line env s line).trace.head? =
      some (.call_execute_pipe_command ((line_tokens line).splitOn "|".toList)
        ((line_tokens line).count "|".toList + 1)) ∧
    ((line_tokens line).splitOn "|".toList).length = (line_tokens line).count "|".toList + 1 ∧
    ((line_tokens line).splitOn "|".toList).flatten =
      (line_tokens line).filter (fun t => t != "|".toList) := by
  have hmod : ∀ L : List (List Token), L.modifyHead (fun x => ([] : List Token) ++ x) = L := by
    intro L; cases L <;> rfl
  have hrun : main_line env s line =
      pipe_dispatch env s ((line_tokens line).splitOn "|".toList) [] := by
    rw [main_line_eq env s line hline hcount hlen, main_tokens,
      main_rest_pipeline env (line_tokens line) _ [] hand
        (by simp only [List.length_nil]; omega)
        (by simp only [List.length_nil]; omega)
        (Or.inr (List.count_pos_iff.1 hk1)), hmod, List.nil_append]
  refine ⟨tokenize_line line hcount hlen, hrun, ?_, length_splitOn _ _, flatten_splitOn _ _⟩
  rw [hrun, pipe_dispatch, length_splitOn]
  cases execute_pipe_command env.stages s ((line_tokens line).splitOn "|".toList)
    ((line_tokens line).count "|".toList + 1) <;> rfl

/-- The line "cmd1 | cmd2 | cmd3" gives the three stages cmd1, cmd2 and cmd3. -/
theorem main_line_pipeline_witness :
    (main_line (line_env none) startup "cmd1 | cmd2 | cmd3".toList).trace.head? =
      some (.call_execute_pipe_command [["cmd1".toList], ["cmd2".toList], ["cmd3".toList]] 3) :=
  (main_line_pipeline (line_env none) startup "cmd1 | cmd2 | cmd3".toList
    (by decide) (by decide) (by decide) (by decide) (by decide) (by decide)).2.2.1.trans
    (by decide)

/-- The scan of `main` on `n` tokens `|` that bring the number of closed stages to 63: the write
of the end marker of `pipe_commands` falls outside the array. -/
theorem main_rest_bars (env : LineEnv) (n : Nat) :
    ∀ (sc : Scan) (tr : List Event), sc.command = [] → sc.pipe_commands.length + n = 63 →
      (sc.pipe_command = true ∨ 0 < n) →
      main_rest env (List.replicate n "|".toList) sc tr = .stopped .undefined tr := by
  induction n with
  | zero =>
    intro sc tr hc hl hp
    have hpc : sc.pipe_command = true := by
      rcases hp with h | h
      · exact h
      · exact absurd h (Nat.lt_irrefl 0)
    have h63 : sc.pipe_commands.length = 63 := by omega
    simp [main_rest, main_scan, main_dispatch, hc, hpc, h63, MAX_NUM_TOKENS]
  | succ n ih =>
    intro sc tr hc hl _
    have hlt : sc.pipe_commands.length < MAX_NUM_TOKENS := by
      simp only [MAX_NUM_TOKENS]; omega
    have hne : "|".toList ≠ "&&".toList := by decide
    have hstep : main_rest env (List.replicate (n + 1) "|".toList) sc tr =
        main_rest env (List.replicate n "|".toList)
          { sc with pipe_command := true, pipe_commands := sc.pipe_commands ++ [sc.command],
                    command := [] } tr := by
      have h0 : sc.command.length < MAX_NUM_TOKENS := by rw [hc]; decide
      simp only [List.replicate_succ, main_rest, main_scan, not_not.2 h0, if_false, if_neg hne,
        if_true, if_pos hlt]
    rw [hstep]
    exact ih _ tr rfl (by simp only [List.length_append, List.length_cons, List.length_nil]; omega)
      (Or.inl rfl)

set_option maxRecDepth 1000000 in
/-- C2 fails as stated.  The line of 63 tokens `|` is tokenized in full (63 tokens fit the token
array), has no `&&` and 63 tokens `|`, but its plan of 64 stages does not fit `pipe_commands`:
the stages fill the 64 slots and `pipe_commands[pipe_command_number] = NULL` writes slot 64,
outside the array, before `execute_pipe_command` is called.  And a line with one `|` does not
reach the scan when it has 64 tokens (the end marker of `tokens` falls outside the array), a
token of 64 characters (the scratch buffer of `tokenize` overflows) or 1023 characters (the
string does not end inside the line buffer): no stage is handed over. -/
theorem pipeline_capacity_counterexample :
    (tokenize (sixty_three_bars ++ ['\n']) = some (List.replicate 63 "|".toList) ∧
      main_line (line_env none) startup sixty_three_bars = .stopped .undefined []) ∧
    ((line_tokens pipe_line_64_tokens).length = 64 ∧
      "&&".toList ∉ line_tokens pipe_line_64_tokens ∧
      (line_tokens pipe_line_64_tokens).count "|".toList = 1 ∧
      main_line (line_env none) startup pipe_line_64_tokens = .stopped .undefined []) ∧
    (line_tokens pipe_line_long_token =
        ["a".toList, "|".toList, List.replicate 64 'x'] ∧
      main_line (line_env none) startup pipe_line_long_token = .stopped .undefined []) ∧
    (pipe_line_1023.length = 1023 ∧
      line_tokens pipe_line_1023 = ["a".toList, "|".toList, "b".toList] ∧
      main_line (line_env none) startup pipe_line_1023 = .stopped .undefined []) := by
  decide

/-- The descriptor table after `close(a)`. -/
theorem fd_lookup_close (t : FdTable) (a b : Int) :
    fd_lookup (fd_close t a) b = if b = a then none else fd_lookup t b := by
  induction t with
  | nil => simp [fd_lookup, fd_close]
  | cons e t ih =>
    unfold fd_lookup fd_close at ih ⊢
    by_cases hea : e.1 = a
    · rw [List.filter_cons_of_neg (by simp [hea])]
      by_cases hb : b = a
      · rw [if_pos hb] at ih ⊢; exact ih
      · rw [if_neg hb] at ih ⊢
        have hne : ¬ e.1 = b := fun h => hb (h ▸ hea)
        rw [ih, List.find?_cons_of_neg _ (by simpa using hne)]
    · rw [List.filter_cons_of_pos (by simpa using hea)]
      by_cases heb : e.1 = b
      · have hb : ¬ b = a := fun h => hea (heb.trans h)
        rw [List.find?_cons_of_pos _ (by simpa using heb),
          List.find?_cons_of_pos _ (by simpa using heb), if_neg hb]
      · rw [List.find?_cons_of_neg _ (by simpa using heb),
          List.find?_cons_of_neg _ (by simpa using heb)]
        exact ih

/-- The descriptor table after a new descriptor `a` is opened. -/
theorem fd_lookup_open (t : FdTable) (a : Int) (obj : FdObj) (b : Int) :
    fd_lookup (fd_open t a obj) b = if b = a then some obj else fd_lookup t b := by
  by_cases hb : b = a
  · subst hb
    simp [fd_open, fd_lookup]
  · rw [if_neg hb]
    have h := fd_lookup_close t a b
    rw [if_neg hb] at h
    unfold fd_open fd_lookup at *
    rw [List.find?_cons_of_neg _ (by simpa using fun e => hb e.symm)]
    exact h

/-- The call `dup2(oldfd, newfd)` on an open `oldfd` succeeds and makes `newfd` a copy of it. -/
theorem fd_dup2_some (t : FdTable) (oldfd newfd : Int) (obj : FdObj)
    (h : fd_lookup t oldfd = some obj) :
    ∃ t1, fd_dup2 t oldfd newfd = some t1 ∧
      ∀ b, fd_lookup t1 b = if b = newfd then some obj else fd_lookup t b := by
  unfold fd_dup2
  rw [h]
  refine ⟨_, rfl, fun b => ?_⟩
  by_cases he : oldfd = newfd
  · rw [if_pos he]
    by_cases hb : b = newfd
    · rw [if_pos hb, hb, ← he, h]
    · rw [if_neg hb]
  · rw [if_neg he]
    exact fd_lookup_open t newfd obj b

/-- The interpreter's part of one iteration: the write end of the new pipe and the previous read
end are closed, the new read end is kept, the child's id is recorded. -/
theorem pipe_parent_spec (fork_result : Int) (pipe_fd : Int × Int) (st : PipeLoop)
    (fds : FdTable) (tr : List Event) :
    (pipe_parent fork_result pipe_fd st fds tr).1.prev_read_fd = pipe_fd.1 ∧
    (pipe_parent fork_result pipe_fd st fds tr).1.c_process = st.c_process ++ [fork_result] ∧
    (∀ fd, fd_lookup (pipe_parent fork_result pipe_fd st fds tr).1.fds fd =
      if (pipe_fd.2 ≠ -1 ∧ fd = pipe_fd.2) ∨ (st.prev_read_fd ≠ -1 ∧ fd = st.prev_read_fd)
      then none else fd_lookup fds fd) ∧
    (pipe_parent fork_result pipe_fd st fds tr).2 =
      tr ++ (if pipe_fd.2 ≠ -1 then [Event.close pipe_fd.2] else []) ++
        (if st.prev_read_fd ≠ -1 then [Event.close st.prev_read_fd] else []) := by
  refine ⟨rfl, rfl, fun fd => ?_, ?_⟩
  · unfold pipe_parent
    by_cases h2 : pipe_fd.2 ≠ -1 <;> by_cases hp : st.prev_read_fd ≠ -1
    · simp only [if_pos h2, if_pos hp, fd_lookup_close]
      by_cases a : fd = st.prev_read_fd <;> by_cases b : fd = pipe_fd.2 <;> simp [a, b, h2, hp]
    · simp only [if_pos h2, if_neg hp, fd_lookup_close]
      by_cases b : fd = pipe_fd.2 <;> simp [b, h2, hp]
    · simp only [if_neg h2, if_pos hp, fd_lookup_close]
      by_cases a : fd = st.prev_read_fd <;> simp [a, h2, hp]
    · simp only [if_neg h2, if_neg hp]
      simp [h2, hp]
  · unfold pipe_parent
    by_cases h2 : pipe_fd.2 ≠ -1 <;> by_cases hp : st.prev_read_fd ≠ -1 <;>
      simp [h2, hp]

/-- One iteration of the loop of `execute_pipe_command` in the interpreter, with a successful
`pipe` and `fork`, keeps the loop invariant. -/
theorem pipe_loop_parent_step (env : Nat → StageEnv) (fds0 : FdTable) (N : Nat)
    (R W : Nat → Int) (commands : List (List Token)) (hlen : commands.length = N)
    (hF : FreshPipes env fds0 N R W) (fuel j : Nat) (st : PipeLoop) (tr : List Event)
    (hj : j < N) (hinv : PipeInv env fds0 N R j st) (hfork : 0 < (env j).fork_result) :
    ∃ st1, pipe_loop env commands N (fuel + 1) j st tr =
        pipe_loop env commands N fuel (j + 1) st1 (tr ++ stage_events env N R W j) ∧
      PipeInv env fds0 N R (j + 1) st1 := by
  obtain ⟨hprev, hlook, hproc⟩ := hinv
  have hget : commands.get? j = some (commands.get ⟨j, hlen ▸ hj⟩) := List.get?_eq_get _
  have hn0 : ¬ (env j).fork_result < 0 := by omega
  have hne : ¬ (env j).fork_result = 0 := by omega
  have hprevne : st.prev_read_fd ≠ -1 ↔ 0 < j := by
    rw [hprev]
    by_cases h0 : 0 < j
    · have := (hF.valid (j - 1) (by omega)).1
      simp [h0, hj, this]
    · simp [h0]
  have hRne : 0 < j → ¬ R (j - 1) = -1 := fun h0 => (hF.valid (j - 1) (by omega)).1
  rw [pipe_loop, hget]
  simp only [if_neg hn0, if_neg hne]
  by_cases hlast : j + 1 < N
  · rw [if_pos hlast, hF.result j hlast]
    simp only []
    obtain ⟨p1, p2, p3, p4⟩ := pipe_parent_spec (env j).fork_result (R j, W j) st
      (fd_open (fd_open st.fds (R j) (.stage_pipe j false)) (W j) (.stage_pipe j true))
      (tr ++ [.pipe (some (R j, W j))] ++ [.fork (env j).fork_result])
    obtain ⟨v1, v2, v3⟩ := hF.valid j hlast
    obtain ⟨c1, c2⟩ := hF.closed j hlast
    generalize pipe_parent (env j).fork_result (R j, W j) st
      (fd_open (fd_open st.fds (R j) (.stage_pipe j false)) (W j) (.stage_pipe j true))
      (tr ++ [.pipe (some (R j, W j))] ++ [.fork (env j).fork_result]) = P at p1 p2 p3 p4 ⊢
    refine ⟨P.1, ?_, ?_, ?_, ?_⟩
    · rw [p4]
      congr 1
      simp only [stage_events, if_pos hlast, v2, ne_eq, not_false_eq_true, if_true]
      by_cases h0 : 0 < j
      · have hp : st.prev_read_fd ≠ -1 := hprevne.2 h0
        simp [h0, hp, hprev, hj, hRne h0]
      · have hp : ¬ st.prev_read_fd ≠ -1 := fun h => h0 (hprevne.1 h)
        simp [h0, hp]
    · rw [p1]; simp [hlast]
    · intro fd
      rw [p3]
      simp only [fd_lookup_open, hlook]
      by_cases h0 : 0 < j
      · have hp : st.prev_read_fd ≠ -1 := hprevne.2 h0
        have hpv : st.prev_read_fd = R (j - 1) := by rw [hprev]; simp [h0, hj]
        obtain ⟨n1, n2⟩ := hF.next (j - 1) (by omega)
        have e : j - 1 + 1 = j := by omega
        rw [e] at n1 n2
        obtain ⟨d1, -⟩ := hF.closed (j - 1) (by omega)
        by_cases a : fd = R (j - 1)
        · subst a
          have : ¬ R (j - 1) = R j := fun h => n1 h.symm
          simp [hpv, hlast, this, d1, hRne h0]
        · by_cases b : fd = W j
          · subst b
            have : ¬ W j = R j := fun h => v3 h.symm
            simp [v2, this, c2]
          · by_cases c : fd = R j
            · subst c
              simp [hlast, a, b, hpv, v3, hRne h0]
            · simp [a, b, c, hpv, hlast, h0, hj, hRne h0]
      · have hp : ¬ st.prev_read_fd ≠ -1 := fun h => h0 (hprevne.1 h)
        by_cases b : fd = W j
        · subst b
          have : ¬ W j = R j := fun h => v3 h.symm
          simp [v2, this, c2]
        · by_cases c : fd = R j
          · subst c
            simp [hlast, b, hp, v3]
          · simp [b, c, hp, hlast, h0]
    · rw [p2, hproc, List.range_succ, List.map_append]
      rfl
  · rw [if_neg hlast]
    obtain ⟨p1, p2, p3, p4⟩ := pipe_parent_spec (env j).fork_result (-1, -1) st st.fds
      (tr ++ [.fork (env j).fork_result])
    generalize pipe_parent (env j).fork_result (-1, -1) st st.fds
      (tr ++ [.fork (env j).fork_result]) = P at p1 p2 p3 p4 ⊢
    refine ⟨P.1, ?_, ?_, ?_, ?_⟩
    · rw [p4]
      congr 1
      simp only [stage_events, if_neg hlast]
      by_cases h0 : 0 < j
      · have hp : st.prev_read_fd ≠ -1 := hprevne.2 h0
        simp [h0, hp, hprev, hj, hRne h0]
      · have hp : ¬ st.prev_read_fd ≠ -1 := fun h => h0 (hprevne.1 h)
        simp [h0, hp]
    · rw [p1]; simp [hlast]
    · intro fd
      rw [p3]
      simp only [hlook]
      by_cases h0 : 0 < j
      · have hp : st.prev_read_fd ≠ -1 := hprevne.2 h0
        have hpv : st.prev_read_fd = R (j - 1) := by rw [hprev]; simp [h0, hj]
        obtain ⟨d1, -⟩ := hF.closed (j - 1) (by omega)
        by_cases a : fd = R (j - 1)
        · subst a
          simp [hpv, hlast, d1, hRne h0]
        · simp [a, hpv, hlast, hRne h0]
      · have hp : ¬ st.prev_read_fd ≠ -1 := fun h => h0 (hprevne.1 h)
        simp [hp, hlast, h0]
    · rw [p2, hproc, List.range_succ, List.map_append]
      rfl

/-- The descriptor table after the three closes of the child. -/
theorem child_closes_spec (prev_read_fd : Int) (pipe_fd : Int × Int) (fds : FdTable) (fd : Int) :
    fd_lookup (child_closes prev_read_fd pipe_fd fds).1 fd =
      if (prev_read_fd ≠ -1 ∧ fd = prev_read_fd) ∨ (pipe_fd.1 ≠ -1 ∧ fd = pipe_fd.1) ∨
          (pipe_fd.2 ≠ -1 ∧ fd = pipe_fd.2)
      then none else fd_lookup fds fd := by
  unfold child_closes
  by_cases hp : prev_read_fd ≠ -1 <;> by_cases h1 : pipe_fd.1 ≠ -1 <;>
    by_cases h2 : pipe_fd.2 ≠ -1 <;>
    simp only [hp, h1, h2, if_true, if_false, not_true_eq_false, not_false_eq_true,
      fd_lookup_close, true_and, false_and, or_false, false_or] <;>
    split_ifs <;> simp_all [fd_lookup_close] <;> tauto

/-- The child branch of an iteration whose `dup2` sources are open: the child replaces its
image, with standard input and output redirected and the three descriptors closed. -/
theorem pipe_child_spec (N i : Nat) (command : List Token) (prev_read_fd : Int)
    (pipe_fd : Int × Int) (fds : FdTable) (tr : List Event) (oprev ow : FdObj)
    (hcmd : command ≠ [])
    (hprev : 0 < i → fd_lookup fds prev_read_fd = some oprev)
    (hw : i + 1 < N → fd_lookup fds pipe_fd.2 = some ow)
    (hw0 : i + 1 < N → pipe_fd.2 ≠ 0) :
    ∃ fds1 tr1, pipe_child true N i command prev_read_fd pipe_fd fds tr =
        .stopped (.exec command fds1) tr1 ∧
      ∀ fd, fd_lookup fds1 fd =
        if (prev_read_fd ≠ -1 ∧ fd = prev_read_fd) ∨ (pipe_fd.1 ≠ -1 ∧ fd = pipe_fd.1) ∨
            (pipe_fd.2 ≠ -1 ∧ fd = pipe_fd.2)
        then none
        else if fd = 1 ∧ i + 1 < N then some ow
        else if fd = 0 ∧ 0 < i then some oprev
        else fd_lookup fds fd := by
  have hexec : ∀ (fds2 : FdTable) (tr2 : List Event),
      child_exec true command prev_read_fd pipe_fd fds2 tr2 =
        .stopped (.exec command (child_closes prev_read_fd pipe_fd fds2).1)
          (tr2 ++ (child_closes prev_read_fd pipe_fd fds2).2 ++ [.execvp command]) := by
    intro fds2 tr2
    cases command with
    | nil => exact absurd rfl hcmd
    | cons c cs => simp [child_exec]
  unfold pipe_child
  by_cases h0 : 0 < i
  · obtain ⟨f2, e2, l2⟩ := fd_dup2_some fds prev_read_fd 0 oprev (hprev h0)
    simp only [if_pos h0, e2]
    by_cases hl : i + 1 < N
    · have hw2 : fd_lookup f2 pipe_fd.2 = some ow := by
        rw [l2, if_neg (hw0 hl)]; exact hw hl
      obtain ⟨f3, e3, l3⟩ := fd_dup2_some f2 pipe_fd.2 1 ow hw2
      simp only [if_pos hl, e3, hexec]
      refine ⟨_, _, rfl, fun fd => ?_⟩
      rw [child_closes_spec, l3, l2]
      simp [h0, hl]
    · simp only [if_neg hl, hexec]
      refine ⟨_, _, rfl, fun fd => ?_⟩
      rw [child_closes_spec, l2]
      simp [h0, hl]
  · simp only [if_neg h0]
    by_cases hl : i + 1 < N
    · obtain ⟨f3, e3, l3⟩ := fd_dup2_some fds pipe_fd.2 1 ow (hw hl)
      simp only [if_pos hl, e3, hexec]
      refine ⟨_, _, rfl, fun fd => ?_⟩
      rw [child_closes_spec, l3]
      simp [h0, hl]
    · simp only [if_neg hl, hexec]
      refine ⟨_, _, rfl, fun fd => ?_⟩
      rw [child_closes_spec]
      simp [h0, hl]

/-- The loop invariant holds before the first iteration. -/
theorem pipe_inv_start (env : Nat → StageEnv) (fds0 : FdTable) (N : Nat) (R : Nat → Int) :
    PipeInv env fds0 N R 0 { prev_read_fd := -1, c_process := [], fds := fds0 } := by
  refine ⟨?_, fun fd => ?_, rfl⟩ <;> simp

/-- The loop of `execute_pipe_command` in the interpreter, from iteration `j` on. -/
theorem pipe_loop_parent (env : Nat → StageEnv) (fds0 : FdTable) (N : Nat)
    (R W : Nat → Int) (commands : List (List Token)) (hlen : commands.length = N)
    (hF : FreshPipes env fds0 N R W) (hfork : ∀ j, j < N → 0 < (env j).fork_result)
    (fuel : Nat) :
    ∀ (j : Nat) (st : PipeLoop) (tr : List Event), j + fuel = N → PipeInv env fds0 N R j st →
      ∃ st1, pipe_loop env commands N fuel j st tr =
          .returned st1 (tr ++ (List.range' j fuel).flatMap (stage_events env N R W)) ∧
        PipeInv env fds0 N R N st1 := by
  induction fuel with
  | zero =>
    intro j st tr hj hinv
    have : j = N := by omega
    subst this
    exact ⟨st, by simp [pipe_loop], hinv⟩
  | succ fuel ih =>
    intro j st tr hj hinv
    obtain ⟨st1, hstep, hinv1⟩ := pipe_loop_parent_step env fds0 N R W commands hlen hF fuel j st
      tr (by omega) hinv (hfork j (by omega))
    obtain ⟨st2, hrun, hinv2⟩ := ih (j + 1) st1 (tr ++ stage_events env N R W j) (by omega) hinv1
    refine ⟨st2, ?_, hinv2⟩
    rw [hstep, hrun, List.range'_succ, List.flatMap_cons, List.append_assoc]

/-- The loop of `execute_pipe_command` in the process that becomes the child of iteration `i`,
from iteration `j ≤ i` on. -/
theorem pipe_loop_child (env : Nat → StageEnv) (fds0 : FdTable) (N : Nat)
    (R W : Nat → Int) (commands : List (List Token)) (hlen : commands.length = N)
    (hF : FreshPipes env fds0 N R W) (i : Nat) (command : List Token)
    (hcmd : commands.get? i = some command) (hne : command ≠ [])
    (hparent : ∀ j, j < i → 0 < (env j).fork_result)
    (hchild : (env i).fork_result = 0) (hexec : (env i).exec_ok = true) (fuel : Nat) :
    ∀ (j : Nat) (st : PipeLoop) (tr : List Event), j + fuel = N → j ≤ i →
      PipeInv env fds0 N R j st →
      ∃ fds1 tr1, pipe_loop env commands N fuel j st tr = .stopped (.exec command fds1) tr1 ∧
        ∀ fd, fd_lookup fds1 fd =
          if fd = 0 ∧ 0 < i then some (.stage_pipe (i - 1) false)
          else if fd = 1 ∧ i + 1 < N then some (.stage_pipe i true)
          else fd_lookup fds0 fd := by
  have hiN : i < N := by
    rw [← hlen]
    by_contra h
    rw [List.get?_eq_none.2 (by omega)] at hcmd
    cases hcmd
  induction fuel with
  | zero => intro j st tr hj hji _; omega
  | succ fuel ih =>
    intro j st tr hj hji hinv
    by_cases hlt : j < i
    · obtain ⟨st1, hstep, hinv1⟩ := pipe_loop_parent_step env fds0 N R W commands hlen hF fuel j
        st tr (by omega) hinv (hparent j hlt)
      rw [hstep]
      exact ih (j + 1) st1 _ (by omega) (by omega) hinv1
    · have hji' : j = i := by omega
      subst hji'
      obtain ⟨hprev, hlook, -⟩ := hinv
      have h00 : ¬ (env j).fork_result < 0 := by omega
      rw [pipe_loop, hcmd]
      simp only [if_neg h00, hchild, if_true, hexec]
      have hpv : 0 < j → st.prev_read_fd = R (j - 1) := by
        intro h0; rw [hprev]; simp [h0, hiN]
      have hpn : ¬ 0 < j → st.prev_read_fd = -1 := by
        intro h0; rw [hprev]; simp [h0]
      by_cases hlast : j + 1 < N
      · rw [if_pos hlast, hF.result j hlast]
        simp only []
        obtain ⟨v1, v2, v3⟩ := hF.valid j hlast
        obtain ⟨s1, s2, s3, s4⟩ := hF.std j hlast
        obtain ⟨c1, c2⟩ := hF.closed j hlast
        obtain ⟨fds1, tr1, hrun, hl⟩ := pipe_child_spec N j command st.prev_read_fd (R j, W j)
          (fd_open (fd_open st.fds (R j) (.stage_pipe j false)) (W j) (.stage_pipe j true))
          (tr ++ [.pipe (some (R j, W j))] ++ [.fork 0])
          (.stage_pipe (j - 1) false) (.stage_pipe j true) hne
          (by
            intro h0
            obtain ⟨n1, n2⟩ := hF.next (j - 1) (by omega)
            have e : j - 1 + 1 = j := by omega
            rw [e] at n1 n2
            rw [hpv h0, fd_lookup_open, fd_lookup_open, hlook]
            have m1 : ¬ R (j - 1) = R j := fun h => n1 h.symm
            have m2 : ¬ R (j - 1) = W j := fun h => n2 h.symm
            simp [h0, hiN, m1, m2])
          (by intro _; simp [fd_lookup_open])
          (by intro _; exact s3)
        refine ⟨fds1, tr1, hrun, fun fd => ?_⟩
        rw [hl]
        simp only [fd_lookup_open, hlook]
        by_cases h0 : 0 < j
        · obtain ⟨t1, t2, -, -⟩ := hF.std (j - 1) (by omega)
          obtain ⟨d1, -⟩ := hF.closed (j - 1) (by omega)
          have r1 := (hF.valid (j - 1) (by omega)).1
          rw [hpv h0]
          by_cases a : fd = R (j - 1)
          · subst a; simp [r1, t1, t2, d1]
          · by_cases b : fd = R j
            · subst b; simp [v1, s1, s2, c1]
            · by_cases c : fd = W j
              · subst c; simp [v2, s3, s4, c2]
              · by_cases z : fd = 0
                · subst z; simp [h0, hlast, a, b, c]
                · by_cases o : fd = 1
                  · subst o; simp [h0, hlast, a, b, c]
                  · simp [a, b, c, z, o]
        · rw [hpn h0]
          by_cases b : fd = R j
          · subst b; simp [v1, s1, s2, c1]
          · by_cases c : fd = W j
            · subst c; simp [v2, s3, s4, c2]
            · by_cases o : fd = 1
              · subst o; simp [h0, hlast, b, c]
              · simp [b, c, o, h0]
      · rw [if_neg hlast]
        obtain ⟨fds1, tr1, hrun, hl⟩ := pipe_child_spec N j command st.prev_read_fd (-1, -1)
          st.fds (tr ++ [.fork 0]) (.stage_pipe (j - 1) false) (.stage_pipe j true) hne
          (by
            intro h0
            rw [hpv h0, hlook]
            simp [h0, hiN])
          (by intro h; exact absurd h hlast)
          (by intro h; exact absurd h hlast)
        refine ⟨fds1, tr1, hrun, fun fd => ?_⟩
        rw [hl]
        simp only [hlook]
        by_cases h0 : 0 < j
        · obtain ⟨t1, t2, -, -⟩ := hF.std (j - 1) (by omega)
          obtain ⟨d1, -⟩ := hF.closed (j - 1) (by omega)
          have r1 := (hF.valid (j - 1) (by omega)).1
          rw [hpv h0]
          by_cases a : fd = R (j - 1)
          · subst a; simp [r1, t1, t2, d1, hlast]
          · by_cases z : fd = 0
            · subst z; simp [h0, hlast, a]
            · simp [a, z, hlast]
        · rw [hpn h0]
          simp [h0, hlast]

/-- The interpreter's run of `execute_pipe_command` on `N` stages when every `pipe` and `fork`
succeeds: per iteration one `pipe` (but for the last), one `fork`, the close of the new write
end and the close of the previous read end, then one `waitpid` per child; on return its
descriptor table is what it was at the call. -/
theorem execute_pipe_command_parent (env : Nat → StageEnv) (s : Shell)
    (commands : List (List Token)) (R W : Nat → Int)
    (hF : FreshPipes env s.fds commands.length R W)
    (hfork : ∀ j, j < commands.length → 0 < (env j).fork_result) :
    ∃ fds1, execute_pipe_command env s commands commands.length =
        .returned { s with fds := fds1 }
          ((List.range commands.length).flatMap (stage_events env commands.length R W) ++
            (List.range commands.length).map (fun k => Event.waitpid (env k).fork_result)) ∧
      ∀ fd, fd_lookup fds1 fd = fd_lookup s.fds fd := by
  obtain ⟨st1, hrun, h1, h2, h3⟩ := pipe_loop_parent env s.fds commands.length R W commands rfl
    hF hfork commands.length 0 { prev_read_fd := -1, c_process := [], fds := s.fds } []
    (by omega) (pipe_inv_start env s.fds commands.length R)
  refine ⟨st1.fds, ?_, fun fd => ?_⟩
  · rw [execute_pipe_command, hrun]
    simp only [List.nil_append, h3, List.map_map, List.range_eq_range']
    rfl
  · rw [h2]
    simp

/-- The child of iteration `i` in a run of `execute_pipe_command` on `N` stages in which every
`pipe`, `fork` and `dup2` succeeds: it replaces its image by the program of stage `i`, with
standard input on the read end of pipe `i - 1` (for `i > 0`), standard output on the write end
of pipe `i` (for `i < N - 1`), and every other descriptor exactly as the interpreter had it when
`execute_pipe_command` was called: no other descriptor of the pipeline's pipes, but every
other descriptor of the interpreter, the start-up pipe of `main` included. -/
theorem execute_pipe_command_child (env : Nat → StageEnv) (s : Shell)
    (commands : List (List Token)) (R W : Nat → Int) (i : Nat) (command : List Token)
    (hF : FreshPipes env s.fds commands.length R W)
    (hcmd : commands.get? i = some command) (hne : command ≠ [])
    (hparent : ∀ j, j < i → 0 < (env j).fork_result)
    (hchild : (env i).fork_result = 0) (hexec : (env i).exec_ok = true) :
    ∃ fds1 tr1, execute_pipe_command env s commands commands.length =
        .stopped (.exec command fds1) tr1 ∧
      ∀ fd, fd_lookup fds1 fd =
        if fd = 0 ∧ 0 < i then some (.stage_pipe (i - 1) false)
        else if fd = 1 ∧ i + 1 < commands.length then some (.stage_pipe i true)
        else fd_lookup s.fds fd := by
  obtain ⟨fds1, tr1, hrun, hl⟩ := pipe_loop_child env s.fds commands.length R W commands rfl hF
    i command hcmd hne hparent hchild hexec commands.length 0
    { prev_read_fd := -1, c_process := [], fds := s.fds } [] (by omega) (by omega)
    (pipe_inv_start env s.fds commands.length R)
  exact ⟨fds1, tr1, by rw [execute_pipe_command, hrun], hl⟩

/-- The descriptors 5, 6 and 6, 7 handed out in a pipeline of three stages after start-up are
fresh, so the two theorems above apply to it. -/
theorem fresh_pipes_after_startup (child : Option Nat) :
    FreshPipes (stage_env child) startup.fds 3 (fun i => 5 + (i : Int))
      (fun i => 6 + (i : Int)) := by
  refine ⟨fun i _ => rfl, fun i hi => ?_, fun i hi => ?_, fun i hi => ?_, fun i hi => ?_⟩
  · refine ⟨?_, ?_, ?_⟩ <;> omega
  · refine ⟨?_, ?_, ?_, ?_⟩ <;> omega
  · have : i = 0 ∨ i = 1 := by omega
    rcases this with rfl | rfl <;> exact ⟨by decide, by decide⟩
  · refine ⟨?_, ?_⟩ <;> push_cast <;> omega

/-- The start-up pipe in the middle child of "ls | sort | wc": descriptors 3 and 4 are still
its two ends when the child replaces its image. -/
theorem execute_pipe_command_child_startup_pipe :
    ∃ fds1 tr1, execute_pipe_command (stage_env (some 1)) startup
        [["ls".toList], ["sort".toList], ["wc".toList]] 3 =
        .stopped (.exec ["sort".toList] fds1) tr1 ∧
      fd_lookup fds1 3 = some (.startup_pipe false) ∧
      fd_lookup fds1 4 = some (.startup_pipe true) := by
  obtain ⟨fds1, tr1, hrun, hl⟩ := execute_pipe_command_child (stage_env (some 1)) startup
    [["ls".toList], ["sort".toList], ["wc".toList]] (fun i => 5 + (i : Int))
    (fun i => 6 + (i : Int)) 1 ["sort".toList] (fresh_pipes_after_startup (some 1))
    (by decide) (by decide) (fun j hj => by
      have : j = 0 := by omega
      subst this; decide) (by decide) (by decide)
  exact ⟨fds1, tr1, hrun, by rw [hl]; decide, by rw [hl]; decide⟩

/-- C8, at inputs where the code fails: in the pipeline "ls | wc" run after start-up, each
child replaces its image with the two descriptors 3 and 4 of the start-up pipe of `main` still
open next to its own pipe end, and the interpreter returns with them open, having closed only
the descriptors 6 and 5 of the pipeline's pipe; the middle child of "ls | sort | wc" has its
input and output on the two pipes, and the start-up pipe still open. -/
theorem pipeline_keeps_startup_pipe :
    main_line (line_env (some 0)) startup "ls | wc".toList =
      .stopped (.exec ["ls".toList]
          [(1, .stage_pipe 0 true), (4, .startup_pipe true), (3, .startup_pipe false), (0, .tty),
            (2, .tty)])
        [.call_execute_pipe_command [["ls".toList], ["wc".toList]] 2, .pipe (some (5, 6)),
          .fork 0, .dup2 6 1, .close 5, .close 6, .execvp ["ls".toList]] ∧
    main_line (line_env (some 1)) startup "ls | wc".toList =
      .stopped (.exec ["wc".toList]
          [(0, .stage_pipe 0 false), (4, .startup_pipe true), (3, .startup_pipe false), (1, .tty),
            (2, .tty)])
        [.call_execute_pipe_command [["ls".toList], ["wc".toList]] 2, .pipe (some (5, 6)),
          .fork 200, .close 6, .fork 0, .dup2 5 0, .close 5, .execvp ["wc".toList]] ∧
    main_line (line_env none) startup "ls | wc".toList =
      .returned startup
        [.call_execute_pipe_command [["ls".toList], ["wc".toList]] 2, .pipe (some (5, 6)),
          .fork 200, .close 6, .fork 201, .close 5, .waitpid 200, .waitpid 201, .ret] ∧
    main_line (line_env (some 1)) startup "ls | sort | wc".toList =
      .stopped (.exec ["sort".toList]
          [(1, .stage_pipe 1 true), (0, .stage_pipe 0 false), (4, .startup_pipe true),
            (3, .startup_pipe false), (2, .tty)])
        [.call_execute_pipe_command [["ls".toList], ["sort".toList], ["wc".toList]] 3,
          .pipe (some (5, 6)), .fork 200, .close 6, .pipe (some (6, 7)), .fork 0, .dup2 5 0,
          .dup2 7 1, .close 5, .close 6, .close 7, .execvp ["sort".toList]] ∧
    startup.fds =
      [(4, .startup_pipe true), (3, .startup_pipe false), (0, .tty), (1, .tty), (2, .tty)] := by
  decide

/-- C9, at an input where the code fails: when the `fork` of a foreground command fails right
after start-up, `execute_command` returns with `sigint_handler` installed, since only the branch
of a successful `fork` restores `SIG_IGN`; an interrupt at the prompt is then handled and
forwarded by `kill(-foreground_pid, SIGINT)`, that is `kill(1, SIGINT)`. -/
theorem failed_fork_leaves_handler :
    startup.sigint = .SIG_IGN ∧
    execute_command { parent_env with fork_result := -1 } startup ["ls".toList] 2 =
      .returned { startup with sigint := .handler }
        [.fork (-1), .signal .handler, .stderr .fork_failed] ∧
    deliver_sigint { startup with sigint := .handler } = some [.kill_sigint 1] := by
  decide

/-- Where the disposition is restored: from a state with the disposition `SIG_IGN`, a call of
`execute_command` in the interpreter whose `fork` does not fail returns with the disposition
`SIG_IGN`, and an interrupt then does nothing. -/
theorem execute_command_restores_ignore (env : Env) (s s1 : Shell) (tokens : List Token)
    (n : Nat) (tr : List Event) (hs : s.sigint = .SIG_IGN) (hfork : 0 ≤ env.fork_result)
    (h : execute_command env s tokens n = .returned s1 tr) :
    s1.sigint = .SIG_IGN ∧ deliver_sigint s1 = some [] := by
  have key : s1.sigint = .SIG_IGN := by
    unfold execute_command execute_background execute_foreground at h
    have hne : env.fork_result ≠ -1 := by omega
    simp only [if_neg hne] at h
    repeat' split at h
    all_goals cases h
    all_goals first
      | exact hs
      | rfl
      | (exfalso; omega)
  exact ⟨key, by simp [deliver_sigint, key]⟩

/-- C10, at an input where the code fails: on the line "ls |" `main` passes the stages `ls`
and the empty stage to `execute_pipe_command`, which reports nothing and forks a child for
each; the child of the empty stage reaches `execvp(NULL, ..)`. -/
theorem empty_stage_is_forked :
    main_line (line_env none) startup "ls |".toList =
      .returned startup
        [.call_execute_pipe_command [["ls".toList], []] 2, .pipe (some (5, 6)),
          .fork 200, .close 6, .fork 201, .close 5, .waitpid 200, .waitpid 201, .ret] ∧
    main_line (line_env (some 1)) startup "ls |".toList =
      .stopped .undefined
        [.call_execute_pipe_command [["ls".toList], []] 2, .pipe (some (5, 6)),
          .fork 200, .close 6, .fork 0, .dup2 5 0, .close 5, .execvp []] ∧
    execute_command parent_env startup [] 1 =
      .returned startup [.stderr .no_such_command] := by
  decide

end CustomShell
